import Mathlib

/-!
Verification of the packet-classifier repository against its specification.

This file shallowly embeds the C++ sources:
  * `include/packet_classifier.h` — the core data model (`PacketHeader`,
    `PacketFilter`, `ActionList`, `ClassificationRule`, `ClassificationResult`)
    and the inline `PacketFilter::matches`;
  * `src/utils/threading.cpp` (RuleManager part) — the authoritative rule store
    `rules_by_id_` (a `std::map<int, ClassificationRule>`, modelled as a
    key-sorted association list), the `rules_by_priority_cache_` (a vector of
    pointers into the map, modelled as the list of their map keys), and the
    operations `addRule`, `deleteRule`, `modifyRule`, `getRule`,
    `getRulesByPriority`, `getAllRules`, `incrementRuleMatchCount`,
    `resetRuleStatistics`, `resetAllRuleStatistics`, `rebuildPriorityCache`;
  * the `PacketClassifier` implementation file — `addRule`, `deleteRule`,
    `modifyRule`, `classify`, `classifyBatch` and the statistics API, together
    with the helper functions `updateSpecializedStructuresForRule` and
    `removeRuleFromSpecializedStructures` (whose trie / interval-tree updates
    are conceptual log statements in the source; their only real state change
    is a Bloom-filter insertion);
  * `src/data_structures/bloom_filter.cpp` — bit-level Bloom filter;
  * `src/data_structures/interval_tree.cpp` — the AVL-augmented interval tree.

Machine-integer conventions: `uint64_t` arithmetic is `Nat` with explicit
`% 2 ^ 64` where the source can wrap (hash mixing, match counters); fields that
are only compared, never computed with (ids, priorities, ports, addresses,
interval endpoints) are `Nat`/`Int` as appropriate.

The C++ field names `source_ip_prefix` / `dest_ip_prefix` are rendered as
`source_ip_pfx` / `dest_ip_pfx` here.
-/

/-! ## Generic list helpers: stable insertion sort and association maps

`rebuildPriorityCache` iterates the `std::map` in ascending-key order and then
applies `std::sort` with the comparator `a->priority > b->priority`.
`std::sort` leaves the relative order of tie elements unspecified; we
determinize it as a stable sort — one conforming outcome, used only where the
tie order is irrelevant. The program does not guarantee any particular tie
order, and `StdSortOutcome` states the full `std::sort` contract where the
tie order matters (C3). -/

def insertSorted (le : α → α → Bool) (x : α) : List α → List α
  | [] => [x]
  | y :: ys => if le x y then x :: y :: ys else y :: insertSorted le x ys

def insertionSort (le : α → α → Bool) : List α → List α
  | [] => []
  | x :: xs => insertSorted le x (insertionSort le xs)

theorem insertSorted_perm (le : α → α → Bool) (x : α) (l : List α) :
    List.Perm (insertSorted le x l) (x :: l) := by
  induction l with
  | nil => simp [insertSorted]
  | cons y ys ih =>
    by_cases h : le x y = true
    · simp [insertSorted, h]
    · rw [insertSorted, if_neg h]
      exact ((ih.cons y).trans (List.Perm.swap x y ys))

theorem insertionSort_perm (le : α → α → Bool) (l : List α) :
    List.Perm (insertionSort le l) l := by
  induction l with
  | nil => simp [insertionSort]
  | cons x xs ih =>
    exact (insertSorted_perm le x (insertionSort le xs)).trans (ih.cons x)

theorem mem_insertSorted {le : α → α → Bool} {x y : α} {l : List α} :
    y ∈ insertSorted le x l ↔ y = x ∨ y ∈ l := by
  constructor
  · intro h
    have := (insertSorted_perm le x l).mem_iff.mp h
    simpa using this
  · intro h
    apply (insertSorted_perm le x l).mem_iff.mpr
    simpa using h

/-- Stability of the insertion sort, packaged for the priority cache: sorting a
list that is strictly increasing under the key `ki` (the map iteration order)
with the comparator `kp · ≥ kp ·` (descending priority) yields a list that is
pairwise ordered by descending `kp` with ties broken by ascending `ki`. -/
theorem insertSorted_pairwise_lex (kp ki : α → Int) (x : α) (l : List α)
    (hl : l.Pairwise (fun a b => kp a > kp b ∨ (kp a = kp b ∧ ki a < ki b)))
    (hx : ∀ y ∈ l, ki x < ki y) :
    (insertSorted (fun a b => decide (kp b ≤ kp a)) x l).Pairwise
      (fun a b => kp a > kp b ∨ (kp a = kp b ∧ ki a < ki b)) := by
  induction l with
  | nil => simp [insertSorted]
  | cons y ys ih =>
    rcases List.pairwise_cons.mp hl with ⟨hy, hys⟩
    rw [insertSorted]
    by_cases h : kp y ≤ kp x
    · rw [if_pos (by simpa using h)]
      refine List.pairwise_cons.mpr ⟨?_, hl⟩
      intro z hz
      rcases List.mem_cons.mp hz with hz | hz
      · subst hz
        rcases lt_or_eq_of_le h with h' | h'
        · exact Or.inl h'
        · exact Or.inr ⟨h'.symm, hx _ (List.mem_cons.mpr (Or.inl rfl))⟩
      · have hyz := hy z hz
        have hyle : kp z ≤ kp y := by
          rcases hyz with h'' | h'' <;> omega
        have hzx : kp z ≤ kp x := le_trans hyle h
        rcases lt_or_eq_of_le hzx with h' | h'
        · exact Or.inl h'
        · exact Or.inr ⟨h'.symm, hx _ (List.mem_cons.mpr (Or.inr hz))⟩
    · rw [if_neg (by simpa using h)]
      refine List.pairwise_cons.mpr
        ⟨?_, ih hys (fun z hz => hx _ (List.mem_cons.mpr (Or.inr hz)))⟩
      intro z hz
      rcases mem_insertSorted.mp hz with hz | hz
      · subst hz
        exact Or.inl (by omega)
      · exact hy z hz

theorem insertionSort_pairwise_lex (kp ki : α → Int) (l : List α)
    (hl : l.Pairwise (fun a b => ki a < ki b)) :
    (insertionSort (fun a b => decide (kp b ≤ kp a)) l).Pairwise
      (fun a b => kp a > kp b ∨ (kp a = kp b ∧ ki a < ki b)) := by
  induction l with
  | nil => simp [insertionSort]
  | cons x xs ih =>
    rcases List.pairwise_cons.mp hl with ⟨hx, hxs⟩
    refine insertSorted_pairwise_lex kp ki x (insertionSort _ xs) (ih hxs) ?_
    intro y hy
    exact hx y ((insertionSort_perm _ xs).mem_iff.mp hy)

/-! Association maps modelling `std::map<int, V>`: a list of key-value pairs
kept sorted by strictly increasing key. `mapInsert` mirrors `emplace` (no
overwrite of an existing key), `mapErase` mirrors `erase`, `mapSet` mirrors
assignment through a found iterator (`it->second = v`). -/

def mapFind (m : List (Int × β)) (k : Int) : Option β :=
  match m with
  | [] => none
  | (k1, v1) :: t => if k = k1 then some v1 else mapFind t k

def containsKey (m : List (Int × β)) (k : Int) : Bool :=
  (mapFind m k).isSome

def mapInsert (m : List (Int × β)) (k : Int) (v : β) : List (Int × β) :=
  match m with
  | [] => [(k, v)]
  | (k1, v1) :: t =>
    if k < k1 then (k, v) :: (k1, v1) :: t
    else if k = k1 then (k1, v1) :: t
    else (k1, v1) :: mapInsert t k v

def mapErase (m : List (Int × β)) (k : Int) : List (Int × β) :=
  match m with
  | [] => []
  | (k1, v1) :: t => if k = k1 then t else (k1, v1) :: mapErase t k

def mapSet (m : List (Int × β)) (k : Int) (v : β) : List (Int × β) :=
  match m with
  | [] => []
  | (k1, v1) :: t => if k = k1 then (k1, v) :: t else (k1, v1) :: mapSet t k v

theorem mapFind_insert_self (m : List (Int × β)) (k : Int) (v : β)
    (h : containsKey m k = false) : mapFind (mapInsert m k v) k = some v := by
  induction m with
  | nil => simp [mapInsert, mapFind]
  | cons e t ih =>
    obtain ⟨k1, v1⟩ := e
    by_cases h1 : k = k1
    · subst h1
      simp [containsKey, mapFind] at h
    · simp only [containsKey, mapFind, h1, if_false] at h
      by_cases h2 : k < k1
      · simp [mapInsert, h2, mapFind]
      · simp only [mapInsert, h2, if_false, h1, if_false]
        simpa [mapFind, h1] using ih (by simpa [containsKey] using h)

theorem mapFind_insert_ne (m : List (Int × β)) (k k' : Int) (v : β)
    (h : k' ≠ k) : mapFind (mapInsert m k v) k' = mapFind m k' := by
  induction m with
  | nil => simp [mapInsert, mapFind, h]
  | cons e t ih =>
    obtain ⟨k1, v1⟩ := e
    by_cases h2 : k < k1
    · simp [mapInsert, h2, mapFind, h]
    · by_cases h3 : k = k1
      · simp [mapInsert, h2, h3]
      · by_cases h4 : k' = k1
        · simp [mapInsert, h2, h3, mapFind, h4]
        · simp [mapInsert, h2, h3, mapFind, h4, ih]

theorem mapFind_set_self (m : List (Int × β)) (k : Int) (v : β)
    (h : containsKey m k = true) : mapFind (mapSet m k v) k = some v := by
  induction m with
  | nil => simp [containsKey, mapFind] at h
  | cons e t ih =>
    obtain ⟨k1, v1⟩ := e
    by_cases h1 : k = k1
    · simp [mapSet, h1, mapFind]
    · simp only [containsKey, mapFind, h1, if_false] at h
      simpa [mapSet, h1, mapFind] using ih (by simpa [containsKey] using h)

theorem mapFind_set_ne (m : List (Int × β)) (k k' : Int) (v : β)
    (h : k' ≠ k) : mapFind (mapSet m k v) k' = mapFind m k' := by
  induction m with
  | nil => simp [mapSet, mapFind]
  | cons e t ih =>
    obtain ⟨k1, v1⟩ := e
    by_cases h1 : k = k1
    · subst h1
      simp [mapSet, mapFind, h]
    · by_cases h2 : k' = k1
      · simp [mapSet, h1, mapFind, h2]
      · simp [mapSet, h1, mapFind, h2, ih]

theorem mapSet_keys (m : List (Int × β)) (k : Int) (v : β) :
    (mapSet m k v).map (fun e => e.1) = m.map (fun e => e.1) := by
  induction m with
  | nil => simp [mapSet]
  | cons e t ih =>
    obtain ⟨k1, v1⟩ := e
    by_cases h1 : k = k1 <;> simp [mapSet, h1, ih]

theorem mem_mapSet (m : List (Int × β)) (k : Int) (v : β) (e : Int × β)
    (h : e ∈ mapSet m k v) : e ∈ m ∨ e = (k, v) := by
  induction m with
  | nil => simp [mapSet] at h
  | cons e1 t ih =>
    obtain ⟨k1, v1⟩ := e1
    by_cases h1 : k = k1
    · subst h1
      simp only [mapSet, if_pos rfl] at h
      rcases List.mem_cons.mp h with h | h
      · exact Or.inr (by simpa using h)
      · exact Or.inl (List.mem_cons.mpr (Or.inr h))
    · simp only [mapSet, h1, if_false] at h
      rcases List.mem_cons.mp h with h | h
      · exact Or.inl (List.mem_cons.mpr (Or.inl h))
      · rcases ih h with h | h
        · exact Or.inl (List.mem_cons.mpr (Or.inr h))
        · exact Or.inr h

theorem mapErase_sublist (m : List (Int × β)) (k : Int) :
    (mapErase m k).Sublist m := by
  induction m with
  | nil => simp [mapErase]
  | cons e t ih =>
    obtain ⟨k1, v1⟩ := e
    by_cases h1 : k = k1
    · subst h1
      simp only [mapErase, if_pos rfl]
      exact List.sublist_cons_self _ _
    · simp only [mapErase, h1, if_false]
      exact ih.cons₂ (k1, v1)

theorem mem_mapInsert_aux {m : List (Int × β)} {k : Int} {v : β} {e : Int × β}
    (h : e ∈ mapInsert m k v) : e ∈ m ∨ e = (k, v) := by
  induction m with
  | nil => simpa [mapInsert] using h
  | cons e1 t ih =>
    obtain ⟨k1, v1⟩ := e1
    by_cases h2 : k < k1
    · simp only [mapInsert, h2, if_true] at h
      rcases List.mem_cons.mp h with h | h
      · exact Or.inr (by simpa using h)
      · exact Or.inl h
    · by_cases h3 : k = k1
      · simp only [mapInsert, h2, if_false, h3, if_pos rfl] at h
        exact Or.inl (by simpa using h)
      · simp only [mapInsert, h2, if_false, h3, if_false] at h
        rcases List.mem_cons.mp h with h | h
        · exact Or.inl (List.mem_cons.mpr (Or.inl h))
        · rcases ih h with h | h
          · exact Or.inl (List.mem_cons.mpr (Or.inr h))
          · exact Or.inr h

theorem mapInsert_keys_pairwise (m : List (Int × β)) (k : Int) (v : β)
    (hs : (m.map (fun e => e.1)).Pairwise (· < ·))
    (h : containsKey m k = false) :
    ((mapInsert m k v).map (fun e => e.1)).Pairwise (· < ·) := by
  induction m with
  | nil => simp [mapInsert]
  | cons e t ih =>
    obtain ⟨k1, v1⟩ := e
    simp only [List.map_cons, List.pairwise_cons] at hs
    obtain ⟨hk1, ht⟩ := hs
    by_cases h1 : k = k1
    · subst h1; simp [containsKey, mapFind] at h
    · simp only [containsKey, mapFind, h1, if_false] at h
      by_cases h2 : k < k1
      · simp only [mapInsert, h2, if_true, List.map_cons, List.pairwise_cons]
        refine ⟨?_, hk1, ht⟩
        intro a ha
        rcases List.mem_cons.mp ha with ha | ha
        · omega
        · have := hk1 a ha; omega
      · have h3 : k1 < k := by omega
        simp only [mapInsert, h2, if_false, h1, if_false, List.map_cons,
          List.pairwise_cons]
        refine ⟨?_, ih ht (by simpa [containsKey] using h)⟩
        intro a ha
        rcases List.mem_map.mp ha with ⟨e, he, rfl⟩
        rcases mem_mapInsert_aux he with hm | hm
        · exact hk1 _ (List.mem_map.mpr ⟨e, hm, rfl⟩)
        · subst hm; omega

theorem mapFind_mem {m : List (Int × β)} {k : Int} {v : β}
    (h : mapFind m k = some v) : (k, v) ∈ m := by
  induction m with
  | nil => simp [mapFind] at h
  | cons e t ih =>
    obtain ⟨k1, v1⟩ := e
    by_cases h1 : k = k1
    · subst h1
      simp [mapFind] at h
      subst h
      exact List.mem_cons.mpr (Or.inl rfl)
    · simp only [mapFind, h1, if_false] at h
      exact List.mem_cons.mpr (Or.inr (ih h))

theorem mapFind_eq_of_mem_nodup {m : List (Int × β)} {k : Int} {v : β}
    (hmem : (k, v) ∈ m) (hnd : (m.map (fun e => e.1)).Nodup) :
    mapFind m k = some v := by
  induction m with
  | nil => simp at hmem
  | cons e t ih =>
    obtain ⟨k1, v1⟩ := e
    simp only [List.map_cons, List.nodup_cons] at hnd
    obtain ⟨hk1, ht⟩ := hnd
    rcases List.mem_cons.mp hmem with hmem | hmem
    · have h1 : k = k1 ∧ v = v1 := by simpa using hmem
      obtain ⟨rfl, rfl⟩ := h1
      simp [mapFind]
    · have hne : k ≠ k1 := by
        intro he
        exact hk1 (he ▸ List.mem_map.mpr ⟨(k, v), hmem, rfl⟩)
      simp only [mapFind, hne, if_false]
      exact ih hmem ht

theorem filterMap_find_keys_eq_values (m : List (Int × β))
    (hnd : (m.map (fun e => e.1)).Nodup) :
    (m.map (fun e => e.1)).filterMap (mapFind m) = m.map (fun e => e.2) := by
  induction m with
  | nil => simp [mapFind]
  | cons e t ih =>
    obtain ⟨k1, v1⟩ := e
    simp only [List.map_cons, List.nodup_cons] at hnd
    obtain ⟨hk1, ht⟩ := hnd
    have hcong : ∀ k ∈ t.map (fun e => e.1),
        mapFind ((k1, v1) :: t) k = mapFind t k := by
      intro k hk
      have hne : k ≠ k1 := fun he => hk1 (he ▸ hk)
      simp [mapFind, hne]
    have hrest : (t.map (fun e => e.1)).filterMap (mapFind ((k1, v1) :: t))
        = t.map (fun e => e.2) := by
      rw [List.filterMap_congr hcong]
      exact ih ht
    simp only [List.map_cons, List.filterMap_cons,
      show mapFind ((k1, v1) :: t) k1 = some v1 from by simp [mapFind], hrest]

theorem filterMap_find_of_forall_mem (l : List (Int × β)) (m : List (Int × β))
    (h : ∀ e ∈ l, mapFind m e.1 = some e.2) :
    (l.map (fun e => e.1)).filterMap (mapFind m) = l.map (fun e => e.2) := by
  induction l with
  | nil => simp
  | cons e t ih =>
    simp only [List.map_cons, List.filterMap_cons,
      h e (List.mem_cons.mpr (Or.inl rfl))]
    congr 1
    exact ih (fun e' he' => h e' (List.mem_cons.mpr (Or.inr he')))

theorem mapFind_erase_ne (m : List (Int × β)) (k k' : Int) (h : k' ≠ k) :
    mapFind (mapErase m k) k' = mapFind m k' := by
  induction m with
  | nil => simp [mapErase]
  | cons e t ih =>
    obtain ⟨k1, v1⟩ := e
    by_cases h1 : k = k1
    · subst h1
      simp [mapErase, mapFind, h]
    · by_cases h2 : k' = k1
      · simp [mapErase, h1, mapFind, h2]
      · simp [mapErase, h1, mapFind, h2, ih]

theorem mapFind_erase_self_nodup (m : List (Int × β)) (k : Int)
    (hnd : (m.map (fun e => e.1)).Nodup) :
    mapFind (mapErase m k) k = none := by
  induction m with
  | nil => simp [mapErase, mapFind]
  | cons e t ih =>
    obtain ⟨k1, v1⟩ := e
    simp only [List.map_cons, List.nodup_cons] at hnd
    obtain ⟨hk1, ht⟩ := hnd
    by_cases h1 : k = k1
    · subst h1
      rw [show mapErase ((k, v1) :: t) k = t from by simp [mapErase]]
      cases hf : mapFind t k with
      | none => exact rfl
      | some v =>
        exact absurd (List.mem_map.mpr ⟨(k, v), mapFind_mem hf, rfl⟩) hk1
    · simp only [mapErase, h1, if_false, mapFind]
      exact ih ht

theorem nodup_keys_of_pairwise {m : List (Int × β)}
    (h : (m.map (fun e => e.1)).Pairwise (· < ·)) :
    (m.map (fun e => e.1)).Nodup :=
  h.imp (fun hab => by omega)

/-! ## Core data model (`include/packet_classifier.h`) -/

/-- Packet header fields relevant to classification (`struct PacketHeader`).
`source_ip`/`dest_ip` are `uint32_t`, ports `uint16_t`, protocol `uint8_t`;
they are only compared, never computed with, so they are plain `Nat`. -/
structure PacketHeader where
  source_ip : Nat
  dest_ip : Nat
  source_port : Nat
  dest_port : Nat
  protocol : Nat
deriving DecidableEq, Repr

/-- Filter condition (`struct PacketFilter`). The IP prefixes are stored as
strings (e.g. "192.168.1.0/24"); the C++ field names `source_ip_prefix` /
`dest_ip_prefix` are rendered `source_ip_pfx` / `dest_ip_pfx`. Port bounds
default to 0; `(0, 0)` is the "not set" sentinel. Protocol 0 means any. -/
structure PacketFilter where
  source_ip_pfx : String := ""
  dest_ip_pfx : String := ""
  source_port_low : Nat := 0
  source_port_high : Nat := 0
  dest_port_low : Nat := 0
  dest_port_high : Nat := 0
  protocol : Nat := 0
deriving DecidableEq, Repr

/-- `PacketFilter::matches` from the header file: protocol equality when the
filter's protocol is nonzero, then the two port-range window checks when the
corresponding range is set (not both bounds zero). The IP-prefix members are
deliberately not consulted (the source defers them to a trie lookup that the
current `classify` never performs and returns `true` regardless). -/
def PacketFilter.matches (f : PacketFilter) (header : PacketHeader) : Bool :=
  if f.protocol ≠ 0 ∧ f.protocol ≠ header.protocol then
    false
  else if (f.source_port_low ≠ 0 ∨ f.source_port_high ≠ 0) ∧
      (header.source_port < f.source_port_low ∨
       header.source_port > f.source_port_high) then
    false
  else if (f.dest_port_low ≠ 0 ∨ f.dest_port_high ≠ 0) ∧
      (header.dest_port < f.dest_port_low ∨
       header.dest_port > f.dest_port_high) then
    false
  else
    true

/-- Action kinds (`ActionList::ActionType`). -/
inductive ActionType where
  | FORWARD
  | DROP
  | LOG
  | MIRROR
deriving DecidableEq, Repr

/-- Action payload (`struct ActionList`): primary action plus the parameters
`next_hop_id` (FORWARD) and `log_identifier` (LOG). -/
structure ActionList where
  primary_action : ActionType := ActionType.DROP
  next_hop_id : Int := -1
  log_identifier : String := ""
deriving DecidableEq, Repr

/-- A classification rule (`struct ClassificationRule`). `match_count` and
`last_match_time` are `uint64_t`; `match_count` arithmetic wraps at `2 ^ 64`
(see `RuleManager.incrementRuleMatchCount`). -/
structure ClassificationRule where
  rule_id : Int
  priority : Int
  filter : PacketFilter
  actions : ActionList
  enabled : Bool := true
  match_count : Nat := 0
  last_match_time : Nat := 0
deriving DecidableEq, Repr

/-- Result of a lookup (`struct ClassificationResult`). -/
structure ClassificationResult where
  matched : Bool := false
  matched_rule_id : Int := -1
  actions : ActionList := {}
deriving DecidableEq, Repr

/-- `PacketFilter::toString`, used as the Bloom-filter key for a rule. -/
def PacketFilter.toStr (f : PacketFilter) : String :=
  "SrcIP_Pfx: " ++ (if f.source_ip_pfx = "" then "any" else f.source_ip_pfx) ++
  ", DstIP_Pfx: " ++ (if f.dest_ip_pfx = "" then "any" else f.dest_ip_pfx) ++
  ", SrcPort: " ++
    (if f.source_port_low = 0 ∧ f.source_port_high = 0 then "any"
     else Nat.repr f.source_port_low ++ "-" ++ Nat.repr f.source_port_high) ++
  ", DstPort: " ++
    (if f.dest_port_low = 0 ∧ f.dest_port_high = 0 then "any"
     else Nat.repr f.dest_port_low ++ "-" ++ Nat.repr f.dest_port_high) ++
  ", Proto: " ++ (if f.protocol = 0 then "any" else Nat.repr f.protocol)

/-- `PacketHeader::toString`, used as the Bloom-filter probe in `classify`. -/
def PacketHeader.toStr (h : PacketHeader) : String :=
  "SrcIP: " ++ Nat.repr h.source_ip ++ ", DstIP: " ++ Nat.repr h.dest_ip ++
  ", SrcPort: " ++ Nat.repr h.source_port ++
  ", DstPort: " ++ Nat.repr h.dest_port ++
  ", Proto: " ++ Nat.repr h.protocol

/-! ## RuleManager (`src/utils/threading.cpp`)

`rules_by_id_` is a `std::map<int, ClassificationRule>`: a key-sorted
association list here. `rules_by_priority_cache_` is a `std::vector` of
pointers into the map's nodes; since `std::map` nodes are stable under
insertion and erasure of other keys, a pointer is identified with the map key
of its node, so the cache is a `List Int` and dereferencing a cached pointer is
`mapFind` on the current map. Locking is irrelevant to the sequential
semantics modelled here. -/

structure RuleManager where
  rules_by_id : List (Int × ClassificationRule)
  rules_by_priority_cache : List Int
deriving DecidableEq, Repr

/-- The fresh `RuleManager()` (empty map, empty cache). -/
def RuleManager.new : RuleManager := ⟨[], []⟩

/-- `RuleManager::rebuildPriorityCache`: collect the map nodes in map
(ascending-key) order and sort by descending priority (comparator
`a->priority > b->priority`). `std::sort` is unstable, so the C++ leaves the
relative order of equal-priority entries unspecified; this definition
determinizes it as a stable sort — one conforming outcome, used only where
the tie order is irrelevant. `StdSortOutcome` below captures the full
`std::sort` contract, and C3 is settled against it. -/
def rebuildPriorityCache (rules_by_id : List (Int × ClassificationRule)) :
    List Int :=
  (insertionSort (fun a b => decide (b.2.priority ≤ a.2.priority))
    rules_by_id).map (fun e => e.1)

/-- `RuleManager::detectConflict`: the placeholder always reports no
conflict. -/
def RuleManager.detectConflict (_m : RuleManager)
    (_rule : ClassificationRule) : Bool :=
  false

/-- `RuleManager::addRule`: fail on an existing id or a detected conflict,
otherwise emplace and rebuild the priority cache. -/
def RuleManager.addRule (m : RuleManager) (rule : ClassificationRule) :
    RuleManager × Bool :=
  if containsKey m.rules_by_id rule.rule_id then (m, false)
  else if m.detectConflict rule then (m, false)
  else
    let rbi := mapInsert m.rules_by_id rule.rule_id rule
    ({ rules_by_id := rbi, rules_by_priority_cache := rebuildPriorityCache rbi },
     true)

/-- `RuleManager::deleteRule`: erase and rebuild the cache when the id was
present, otherwise report failure. -/
def RuleManager.deleteRule (m : RuleManager) (rule_id : Int) :
    RuleManager × Bool :=
  if containsKey m.rules_by_id rule_id then
    let rbi := mapErase m.rules_by_id rule_id
    ({ rules_by_id := rbi, rules_by_priority_cache := rebuildPriorityCache rbi },
     true)
  else (m, false)

/-- `RuleManager::modifyRule`: overwrite the stored rule wholesale
(`it->second = new_rule_data`), restore the outer `rule_id`, and rebuild the
cache only when the priority changed (or the cache was empty). Note the
overwrite replaces `match_count` and `last_match_time` with the values carried
by `new_rule_data`. -/
def RuleManager.modifyRule (m : RuleManager) (rule_id : Int)
    (new_rule_data : ClassificationRule) : RuleManager × Bool :=
  match mapFind m.rules_by_id rule_id with
  | none => (m, false)
  | some old =>
    if m.detectConflict { new_rule_data with rule_id := rule_id } then (m, false)
    else
      let priority_changed := old.priority ≠ new_rule_data.priority
      let updated := { new_rule_data with rule_id := rule_id }
      let rbi := mapSet m.rules_by_id rule_id updated
      let cache :=
        if priority_changed ∨ m.rules_by_priority_cache.isEmpty then
          rebuildPriorityCache rbi
        else m.rules_by_priority_cache
      ({ rules_by_id := rbi, rules_by_priority_cache := cache }, true)

/-- `RuleManager::getRule`: lookup by id. -/
def RuleManager.getRule (m : RuleManager) (rule_id : Int) :
    Option ClassificationRule :=
  mapFind m.rules_by_id rule_id

/-- `RuleManager::getRulesByPriority`: dereference the cached pointers in
cache order against the current map. -/
def RuleManager.getRulesByPriority (m : RuleManager) :
    List ClassificationRule :=
  m.rules_by_priority_cache.filterMap (mapFind m.rules_by_id)

/-- `RuleManager::getAllRules`: the id-keyed view. -/
def RuleManager.getAllRules (m : RuleManager) :
    List (Int × ClassificationRule) :=
  m.rules_by_id

/-- `RuleManager::incrementRuleMatchCount`: bump the stored rule's
`match_count` (a `uint64_t`, hence `% 2 ^ 64`) and record the timestamp. -/
def RuleManager.incrementRuleMatchCount (m : RuleManager) (rule_id : Int)
    (timestamp : Nat) : RuleManager × Bool :=
  match mapFind m.rules_by_id rule_id with
  | none => (m, false)
  | some r =>
    let r' := { r with match_count := (r.match_count + 1) % 2 ^ 64,
                       last_match_time := timestamp }
    ({ m with rules_by_id := mapSet m.rules_by_id rule_id r' }, true)

/-- `RuleManager::resetRuleStatistics`. -/
def RuleManager.resetRuleStatistics (m : RuleManager) (rule_id : Int) :
    RuleManager × Bool :=
  match mapFind m.rules_by_id rule_id with
  | none => (m, false)
  | some r =>
    let r' := { r with match_count := 0, last_match_time := 0 }
    ({ m with rules_by_id := mapSet m.rules_by_id rule_id r' }, true)

/-- `RuleManager::resetAllRuleStatistics`. -/
def RuleManager.resetAllRuleStatistics (m : RuleManager) : RuleManager :=
  let reset := fun (e : Int × ClassificationRule) =>
    (e.1, { e.2 with match_count := 0, last_match_time := 0 })
  { m with rules_by_id := m.rules_by_id.map reset }

/-! ## PacketClassifier facade

The specialized structures (`source_ip_trie_`, `dest_ip_trie_`,
`source_port_tree_`, `dest_port_tree_`) are never actually populated by the
source: `updateSpecializedStructuresForRule` and
`removeRuleFromSpecializedStructures` only emit "Conceptual:" log lines for
them. Their one real state change is `bloom_filter_->insert(...)`. The Bloom
filter object is therefore modelled by the list of strings inserted into it
(`bloom_contents`), and `bloom_filter_->possiblyContains` — whose result
`classify` discards — is an arbitrary oracle over that state, passed as a
parameter and universally quantified in the theorems. Its bit-level
behaviour is verified separately on the `BloomFilter` embedding below. -/

structure PacketClassifier where
  rule_manager : RuleManager
  use_bloom_filter : Bool
  bloom_contents : List String
deriving DecidableEq, Repr

/-- The `PacketClassifier(bool enable_bloom_filter_optimization)`
constructor. -/
def PacketClassifier.create (enable_bloom_filter_optimization : Bool) :
    PacketClassifier :=
  { rule_manager := RuleManager.new,
    use_bloom_filter := enable_bloom_filter_optimization,
    bloom_contents := [] }

/-- `PacketClassifier::updateSpecializedStructuresForRule` (the `int rule_id`
overload actually defined in the implementation file): fails only when the
rule id is no longer in the RuleManager; otherwise the trie/interval-tree
updates are conceptual log statements, and an enabled rule's filter string is
inserted into the Bloom filter when the optimization is on. -/
def PacketClassifier.updateSpecializedStructuresForRule
    (c : PacketClassifier) (rule_id : Int) : PacketClassifier × Bool :=
  match c.rule_manager.getRule rule_id with
  | none => (c, false)
  | some rule =>
    let c' :=
      if rule.enabled ∧ c.use_bloom_filter then
        { c with bloom_contents := c.bloom_contents ++ [rule.filter.toStr] }
      else c
    (c', true)

/-- `PacketClassifier::removeRuleFromSpecializedStructures`: both the
found and not-found paths only log and return `true`; no state changes. -/
def PacketClassifier.removeRuleFromSpecializedStructures
    (c : PacketClassifier) (rule_id : Int) : Bool :=
  match c.rule_manager.getRule rule_id with
  | none => true
  | some _ => true

/-- `PacketClassifier::addRule`: delegate to the RuleManager, then update the
specialized structures, then (redundantly, as the source does) insert the
enabled rule's filter string into the Bloom filter again. On a RuleManager
failure the call returns `false` with the state untouched; the
specialized-structure failure branch performs no rollback, but it is
unreachable because the rule was just added. -/
def PacketClassifier.addRule (c : PacketClassifier)
    (rule : ClassificationRule) : PacketClassifier × Bool :=
  let res := c.rule_manager.addRule rule
  if ¬res.2 then (c, false)
  else
    let c1 := { c with rule_manager := res.1 }
    let res2 := c1.updateSpecializedStructuresForRule rule.rule_id
    let c2 := res2.1
    if ¬res2.2 then (c2, false)
    else
      let c3 :=
        if c2.use_bloom_filter then
          match c2.rule_manager.getRule rule.rule_id with
          | some added_rule =>
            if added_rule.enabled then
              { c2 with bloom_contents :=
                  c2.bloom_contents ++ [added_rule.filter.toStr] }
            else c2
          | none => c2
        else c2
      (c3, true)

/-- `PacketClassifier::deleteRule`: the specialized-structure removal is a
no-op that always reports success, then the RuleManager deletion decides the
result. Bloom-filter entries are never removed. -/
def PacketClassifier.deleteRule (c : PacketClassifier) (rule_id : Int) :
    PacketClassifier × Bool :=
  let _removed := c.removeRuleFromSpecializedStructures rule_id
  let res := c.rule_manager.deleteRule rule_id
  if ¬res.2 then (c, false)
  else ({ c with rule_manager := res.1 }, true)

/-- `PacketClassifier::modifyRule`: RuleManager modification first, then
remove/re-add in the specialized structures, then the Bloom insertion of the
new filter string. Failure of the RuleManager step leaves the state
untouched; the later failure branch is unreachable (the id is present after a
successful modify). -/
def PacketClassifier.modifyRule (c : PacketClassifier) (rule_id : Int)
    (new_rule_data : ClassificationRule) : PacketClassifier × Bool :=
  let res := c.rule_manager.modifyRule rule_id new_rule_data
  if ¬res.2 then (c, false)
  else
    let c1 := { c with rule_manager := res.1 }
    let _removed := c1.removeRuleFromSpecializedStructures rule_id
    let res2 := c1.updateSpecializedStructuresForRule rule_id
    let c2 := res2.1
    if ¬res2.2 then (c2, false)
    else
      let c3 :=
        if c2.use_bloom_filter then
          match c2.rule_manager.getRule rule_id with
          | some modified_rule =>
            if modified_rule.enabled then
              { c2 with bloom_contents :=
                  c2.bloom_contents ++ [modified_rule.filter.toStr] }
            else c2
          | none => c2
        else c2
      (c3, true)

/-- `PacketClassifier::classify`: consult the Bloom filter with the header
string and discard the hint (the source only logs it), then walk the
priority-ordered snapshot and return the first enabled rule whose filter
matches, bumping its match counter with the current timestamp (`now`, the
seconds-since-epoch value the source reads from the system clock). -/
def PacketClassifier.classify (oracle : List String → String → Bool)
    (c : PacketClassifier) (header : PacketHeader) (now : Nat) :
    PacketClassifier × ClassificationResult :=
  let _hint :=
    if c.use_bloom_filter then oracle c.bloom_contents header.toStr else true
  let rules := c.rule_manager.getRulesByPriority
  match rules.find? (fun r => r.enabled && r.filter.matches header) with
  | some rule =>
    let rm := (c.rule_manager.incrementRuleMatchCount rule.rule_id now).1
    ({ c with rule_manager := rm },
     { matched := true, matched_rule_id := rule.rule_id,
       actions := rule.actions })
  | none =>
    (c, { matched := false, matched_rule_id := -1, actions := {} })

/-- `PacketClassifier::classifyBatch`: per-header `classify`, threading the
state. -/
def PacketClassifier.classifyBatch (oracle : List String → String → Bool)
    (c : PacketClassifier) (headers : List (PacketHeader × Nat)) :
    PacketClassifier × List ClassificationResult :=
  match headers with
  | [] => (c, [])
  | (h, now) :: rest =>
    let res := c.classify oracle h now
    let rest' := res.1.classifyBatch oracle rest
    (rest'.1, res.2 :: rest'.2)

/-- `PacketClassifier::getStatistics`: snapshot of id → match_count. -/
def PacketClassifier.getStatistics (c : PacketClassifier) :
    List (Int × Nat) :=
  c.rule_manager.getAllRules.map (fun e => (e.1, e.2.match_count))

/-- `PacketClassifier::getRuleStatistics`: a missing id reports 0. -/
def PacketClassifier.getRuleStatistics (c : PacketClassifier)
    (rule_id : Int) : Nat :=
  match c.rule_manager.getRule rule_id with
  | some rule => rule.match_count
  | none => 0

/-- `PacketClassifier::resetStatistics`. -/
def PacketClassifier.resetStatistics (c : PacketClassifier) :
    PacketClassifier :=
  { c with rule_manager := c.rule_manager.resetAllRuleStatistics }

/-- `PacketClassifier::resetRuleStatistics`. -/
def PacketClassifier.resetRuleStatistics (c : PacketClassifier)
    (rule_id : Int) : PacketClassifier :=
  { c with rule_manager := (c.rule_manager.resetRuleStatistics rule_id).1 }

/-- Administrative / lookup operations of the public API, for quantifying
over operation sequences. -/
inductive AdminOp where
  | add (rule : ClassificationRule)
  | del (rule_id : Int)
  | modify (rule_id : Int) (new_rule_data : ClassificationRule)
  | classifyOp (header : PacketHeader) (now : Nat)
  | getStats
  | getRuleStats (rule_id : Int)
  | resetStats
  | resetRuleStats (rule_id : Int)
deriving DecidableEq, Repr

/-- State transition of one public-API call (statistics queries are `const`
and leave the state unchanged). -/
def PacketClassifier.applyOp (oracle : List String → String → Bool)
    (c : PacketClassifier) : AdminOp → PacketClassifier
  | AdminOp.add rule => (c.addRule rule).1
  | AdminOp.del rule_id => (c.deleteRule rule_id).1
  | AdminOp.modify rule_id new_rule_data =>
    (c.modifyRule rule_id new_rule_data).1
  | AdminOp.classifyOp header now => (c.classify oracle header now).1
  | AdminOp.getStats => c
  | AdminOp.getRuleStats _ => c
  | AdminOp.resetStats => c.resetStatistics
  | AdminOp.resetRuleStats rule_id => c.resetRuleStatistics rule_id

/-- Fold a sequence of public-API calls from a starting state. -/
def PacketClassifier.applyOps (oracle : List String → String → Bool)
    (c : PacketClassifier) (ops : List AdminOp) : PacketClassifier :=
  ops.foldl (fun s op => s.applyOp oracle op) c

/-! ## Behavioural lemmas for the RuleManager operations -/

theorem RuleManager.addRule_of_contains (m : RuleManager)
    (rule : ClassificationRule)
    (h : containsKey m.rules_by_id rule.rule_id = true) :
    m.addRule rule = (m, false) := by
  simp [RuleManager.addRule, h]

theorem RuleManager.addRule_of_not_contains (m : RuleManager)
    (rule : ClassificationRule)
    (h : containsKey m.rules_by_id rule.rule_id = false) :
    m.addRule rule =
      ({ rules_by_id := mapInsert m.rules_by_id rule.rule_id rule,
         rules_by_priority_cache :=
           rebuildPriorityCache (mapInsert m.rules_by_id rule.rule_id rule) },
       true) := by
  simp [RuleManager.addRule, h, RuleManager.detectConflict]

theorem RuleManager.modifyRule_of_none (m : RuleManager) (rule_id : Int)
    (new_rule_data : ClassificationRule)
    (h : mapFind m.rules_by_id rule_id = none) :
    m.modifyRule rule_id new_rule_data = (m, false) := by
  simp [RuleManager.modifyRule, h]

theorem RuleManager.modifyRule_of_some (m : RuleManager) (rule_id : Int)
    (new_rule_data old : ClassificationRule)
    (h : mapFind m.rules_by_id rule_id = some old) :
    m.modifyRule rule_id new_rule_data =
      ({ rules_by_id := mapSet m.rules_by_id rule_id
           { new_rule_data with rule_id := rule_id },
         rules_by_priority_cache :=
           if old.priority ≠ new_rule_data.priority ∨
               m.rules_by_priority_cache.isEmpty then
             rebuildPriorityCache (mapSet m.rules_by_id rule_id
               { new_rule_data with rule_id := rule_id })
           else m.rules_by_priority_cache },
       true) := by
  simp [RuleManager.modifyRule, h, RuleManager.detectConflict]

theorem RuleManager.deleteRule_of_contains (m : RuleManager) (rule_id : Int)
    (h : containsKey m.rules_by_id rule_id = true) :
    m.deleteRule rule_id =
      ({ rules_by_id := mapErase m.rules_by_id rule_id,
         rules_by_priority_cache :=
           rebuildPriorityCache (mapErase m.rules_by_id rule_id) },
       true) := by
  simp [RuleManager.deleteRule, h]

theorem RuleManager.deleteRule_of_not_contains (m : RuleManager)
    (rule_id : Int) (h : containsKey m.rules_by_id rule_id = false) :
    m.deleteRule rule_id = (m, false) := by
  simp [RuleManager.deleteRule, h]

/-! ## C8 — the Bloom pre-filter never decides a classification -/

/-- C8: for every packet header and every rule-set state, the result of
`classify` (matched flag, rule id, actions) — and the resulting rule store —
is identical regardless of the Bloom filter's contents, of the answer of its
`possiblyContains` oracle, and of whether the pre-filter is enabled: the hint
is computed and discarded, so a negative pre-filter answer never bypasses the
authoritative match. -/
theorem c8_classify_independent_of_bloom (rm : RuleManager) (u1 u2 : Bool)
    (bc1 bc2 : List String) (o1 o2 : List String → String → Bool)
    (header : PacketHeader) (now : Nat) :
    ((PacketClassifier.mk rm u1 bc1).classify o1 header now).2 =
      ((PacketClassifier.mk rm u2 bc2).classify o2 header now).2 ∧
    ((PacketClassifier.mk rm u1 bc1).classify o1 header now).1.rule_manager =
      ((PacketClassifier.mk rm u2 bc2).classify o2 header now).1.rule_manager := by
  unfold PacketClassifier.classify
  cases h : rm.getRulesByPriority.find?
      (fun r => r.enabled && r.filter.matches header) <;>
    simp [h]

/-! ## C4 — failed mutations leave the state unchanged -/

/-- C4: every mutation (`addRule`, `deleteRule`, `modifyRule`) that reports
failure leaves the classifier — rule store, priority cache and Bloom state —
exactly as it was before the call. (The only failure paths reachable in the
sequential semantics are the RuleManager rejections, which occur before any
state is touched; the no-rollback branch after a successful store update is
unreachable because the rule just added or modified is always found again.) -/
theorem c4_mutation_failure_preserves_state (c : PacketClassifier) :
    (∀ rule, (c.addRule rule).2 = false → (c.addRule rule).1 = c) ∧
    (∀ rule_id, (c.deleteRule rule_id).2 = false →
      (c.deleteRule rule_id).1 = c) ∧
    (∀ rule_id new_rule_data,
      (c.modifyRule rule_id new_rule_data).2 = false →
      (c.modifyRule rule_id new_rule_data).1 = c) := by
  refine ⟨?_, ?_, ?_⟩
  · intro rule hfail
    by_cases h : containsKey c.rule_manager.rules_by_id rule.rule_id
    · simp [PacketClassifier.addRule, RuleManager.addRule_of_contains _ _ h]
    · exfalso
      have hins := RuleManager.addRule_of_not_contains c.rule_manager rule
        (by simpa using h)
      have hfind : mapFind
          (mapInsert c.rule_manager.rules_by_id rule.rule_id rule)
          rule.rule_id = some rule :=
        mapFind_insert_self _ _ _ (by simpa using h)
      simp [PacketClassifier.addRule, hins,
        PacketClassifier.updateSpecializedStructuresForRule,
        RuleManager.getRule, hfind] at hfail
  · intro rule_id hfail
    by_cases h : containsKey c.rule_manager.rules_by_id rule_id
    · exfalso
      simp [PacketClassifier.deleteRule,
        RuleManager.deleteRule_of_contains _ _ h] at hfail
    · simp [PacketClassifier.deleteRule,
        RuleManager.deleteRule_of_not_contains _ _ (by simpa using h)]
  · intro rule_id new_rule_data hfail
    cases hfind : mapFind c.rule_manager.rules_by_id rule_id with
    | none =>
      simp [PacketClassifier.modifyRule,
        RuleManager.modifyRule_of_none _ _ _ hfind]
    | some old =>
      exfalso
      have hmod := RuleManager.modifyRule_of_some c.rule_manager rule_id
        new_rule_data old hfind
      have hcontains : containsKey c.rule_manager.rules_by_id rule_id = true := by
        simp [containsKey, hfind]
      have hfind2 : mapFind
          (mapSet c.rule_manager.rules_by_id rule_id
            { new_rule_data with rule_id := rule_id }) rule_id =
          some { new_rule_data with rule_id := rule_id } :=
        mapFind_set_self _ _ _ hcontains
      simp [PacketClassifier.modifyRule, hmod,
        PacketClassifier.updateSpecializedStructuresForRule,
        RuleManager.getRule, hfind2] at hfail

/-- Witness for C4 at a concrete input: deleting a missing id from a fresh
classifier fails and leaves the state unchanged. -/
theorem c4_witness :
    ((PacketClassifier.create true).deleteRule 5).2 = false ∧
    ((PacketClassifier.create true).deleteRule 5).1 =
      PacketClassifier.create true :=
  ⟨by decide,
   (c4_mutation_failure_preserves_state (PacketClassifier.create true)).2.1 5
     (by decide)⟩

/-! ## Invariants of reachable RuleManager states -/

/-- Ordering of two cached ids under the current store: higher priority first,
ties by ascending id (vacuous when either id is absent). -/
def RelP (m : List (Int × ClassificationRule)) (i j : Int) : Prop :=
  ∀ a b, mapFind m i = some a → mapFind m j = some b →
    (a.priority > b.priority ∨ (a.priority = b.priority ∧ i < j))

/-- The spec's priority-view order on rules: descending priority, ties broken
by ascending rule id (the "(−priority, id)" order). -/
def byPriorityThenId (a b : ClassificationRule) : Prop :=
  a.priority > b.priority ∨ (a.priority = b.priority ∧ a.rule_id < b.rule_id)

instance : IsAntisymm ClassificationRule byPriorityThenId := by
  constructor
  intro a b h1 h2
  exfalso
  unfold byPriorityThenId at h1 h2
  rcases h1 with h1 | ⟨h1, h1'⟩ <;> rcases h2 with h2 | ⟨h2, h2'⟩ <;> omega

/-- Invariant maintained by every RuleManager state reachable through the
public API of the determinized model: the map is key-sorted (it models
`std::map` iteration order), each stored rule records its own key as
`rule_id`, the pointer cache is a permutation of the map's keys, and the
cache order is descending priority with ties by ascending id under the
current store. The tie half of `cache_sorted` reflects the stable
determinization of `std::sort`, not a guarantee of the program: it serves
only to pin the model's view to the deterministic reference order, never to
assert a tie order of the program itself (see `StdSortOutcome` and C3). -/
structure RMInv (m : RuleManager) : Prop where
  keys_sorted : (m.rules_by_id.map (fun e => e.1)).Pairwise (· < ·)
  id_eq_key : ∀ e ∈ m.rules_by_id, e.2.rule_id = e.1
  cache_perm : List.Perm m.rules_by_priority_cache
    (m.rules_by_id.map (fun e => e.1))
  cache_sorted : m.rules_by_priority_cache.Pairwise (RelP m.rules_by_id)

theorem RMInv_new : RMInv RuleManager.new := by
  refine ⟨?_, ?_, ?_, ?_⟩ <;> simp [RuleManager.new]

theorem rebuildPriorityCache_perm (m : List (Int × ClassificationRule)) :
    List.Perm (rebuildPriorityCache m) (m.map (fun e => e.1)) :=
  (insertionSort_perm _ m).map _

theorem rebuildPriorityCache_sorted (m : List (Int × ClassificationRule))
    (hs : (m.map (fun e => e.1)).Pairwise (· < ·)) :
    (rebuildPriorityCache m).Pairwise (RelP m) := by
  have hnd : (m.map (fun e => e.1)).Nodup := nodup_keys_of_pairwise hs
  have hin : m.Pairwise (fun a b => a.1 < b.1) := List.pairwise_map.mp hs
  have hsorted := insertionSort_pairwise_lex
    (fun e : Int × ClassificationRule => e.2.priority)
    (fun e : Int × ClassificationRule => e.1) m hin
  unfold rebuildPriorityCache
  refine List.pairwise_map.mpr ?_
  refine hsorted.imp_of_mem ?_
  intro e e' he he' hrel
  have hmem : e ∈ m :=
    (insertionSort_perm _ m).mem_iff.mp he
  have hmem' : e' ∈ m :=
    (insertionSort_perm _ m).mem_iff.mp he'
  have hfe : mapFind m e.1 = some e.2 := by
    obtain ⟨k, v⟩ := e
    exact mapFind_eq_of_mem_nodup hmem hnd
  have hfe' : mapFind m e'.1 = some e'.2 := by
    obtain ⟨k, v⟩ := e'
    exact mapFind_eq_of_mem_nodup hmem' hnd
  intro a b ha hb
  rw [hfe] at ha
  rw [hfe'] at hb
  obtain rfl := Option.some.inj ha
  obtain rfl := Option.some.inj hb
  exact hrel

/-- Transfer of the cache ordering along a store change that preserves each
id's presence and priority. -/
theorem RelP_congr {m m' : List (Int × ClassificationRule)}
    (h : ∀ i, (mapFind m' i).map (fun r => r.priority) =
              (mapFind m i).map (fun r => r.priority))
    {i j : Int} (hrel : RelP m i j) : RelP m' i j := by
  intro a b ha hb
  have hi := h i
  have hj := h j
  rw [ha] at hi
  rw [hb] at hj
  cases hfi : mapFind m i with
  | none => rw [hfi] at hi; simp at hi
  | some a0 =>
    cases hfj : mapFind m j with
    | none => rw [hfj] at hj; simp at hj
    | some b0 =>
      rw [hfi] at hi
      rw [hfj] at hj
      simp at hi hj
      have := hrel a0 b0 hfi hfj
      omega

/-! ## Preservation of the invariant by each operation -/

theorem RMInv_addRule {m : RuleManager} (hm : RMInv m)
    (rule : ClassificationRule) : RMInv (m.addRule rule).1 := by
  by_cases h : containsKey m.rules_by_id rule.rule_id
  · rw [RuleManager.addRule_of_contains _ _ h]
    exact hm
  · have h' : containsKey m.rules_by_id rule.rule_id = false := by simpa using h
    rw [RuleManager.addRule_of_not_contains _ _ h']
    have hkeys := mapInsert_keys_pairwise m.rules_by_id rule.rule_id rule
      hm.keys_sorted h'
    refine ⟨hkeys, ?_, rebuildPriorityCache_perm _,
      rebuildPriorityCache_sorted _ hkeys⟩
    intro e he
    rcases mem_mapInsert_aux he with he | he
    · exact hm.id_eq_key e he
    · subst he; rfl

theorem RMInv_deleteRule {m : RuleManager} (hm : RMInv m) (rule_id : Int) :
    RMInv (m.deleteRule rule_id).1 := by
  by_cases h : containsKey m.rules_by_id rule_id
  · rw [RuleManager.deleteRule_of_contains _ _ h]
    have hsub := mapErase_sublist m.rules_by_id rule_id
    have hkeys : ((mapErase m.rules_by_id rule_id).map
        (fun e => e.1)).Pairwise (· < ·) :=
      List.Pairwise.sublist (hsub.map _) hm.keys_sorted
    refine ⟨hkeys, ?_, rebuildPriorityCache_perm _,
      rebuildPriorityCache_sorted _ hkeys⟩
    intro e he
    exact hm.id_eq_key e (hsub.subset he)
  · rw [RuleManager.deleteRule_of_not_contains _ _ (by simpa using h)]
    exact hm

theorem RMInv_modifyRule {m : RuleManager} (hm : RMInv m) (rule_id : Int)
    (new_rule_data : ClassificationRule) :
    RMInv (m.modifyRule rule_id new_rule_data).1 := by
  cases hfind : mapFind m.rules_by_id rule_id with
  | none =>
    rw [RuleManager.modifyRule_of_none _ _ _ hfind]
    exact hm
  | some old =>
    rw [RuleManager.modifyRule_of_some _ _ _ _ hfind]
    set updated : ClassificationRule := { new_rule_data with rule_id := rule_id }
    have hkeys : ((mapSet m.rules_by_id rule_id updated).map
        (fun e => e.1)).Pairwise (· < ·) := by
      rw [mapSet_keys]
      exact hm.keys_sorted
    have hids : ∀ e ∈ mapSet m.rules_by_id rule_id updated,
        e.2.rule_id = e.1 := by
      intro e he
      rcases mem_mapSet _ _ _ _ he with he | he
      · exact hm.id_eq_key e he
      · subst he; rfl
    by_cases hcond : old.priority ≠ new_rule_data.priority ∨
        m.rules_by_priority_cache.isEmpty
    · rw [if_pos hcond]
      exact ⟨hkeys, hids, rebuildPriorityCache_perm _,
        rebuildPriorityCache_sorted _ hkeys⟩
    · rw [if_neg hcond]
      push_neg at hcond
      obtain ⟨hprio, _⟩ := hcond
      have hcontains : containsKey m.rules_by_id rule_id = true := by
        simp [containsKey, hfind]
      have hcongr : ∀ i,
          (mapFind (mapSet m.rules_by_id rule_id updated) i).map
            (fun r => r.priority) =
          (mapFind m.rules_by_id i).map (fun r => r.priority) := by
        intro i
        by_cases hi : i = rule_id
        · subst hi
          rw [mapFind_set_self _ _ _ hcontains, hfind]
          simp [updated, hprio]
        · rw [mapFind_set_ne _ _ _ _ hi]
      refine ⟨hkeys, hids, ?_, ?_⟩
      · rw [mapSet_keys]
        exact hm.cache_perm
      · exact hm.cache_sorted.imp (fun hrel => RelP_congr hcongr hrel)

theorem RMInv_incrementRuleMatchCount {m : RuleManager} (hm : RMInv m)
    (rule_id : Int) (timestamp : Nat) :
    RMInv (m.incrementRuleMatchCount rule_id timestamp).1 := by
  unfold RuleManager.incrementRuleMatchCount
  cases hfind : mapFind m.rules_by_id rule_id with
  | none => exact hm
  | some r =>
    simp only
    set r' : ClassificationRule := { r with
      match_count := (r.match_count + 1) % 2 ^ 64,
      last_match_time := timestamp }
    have hcontains : containsKey m.rules_by_id rule_id = true := by
      simp [containsKey, hfind]
    have hrid : r.rule_id = rule_id := hm.id_eq_key _ (mapFind_mem hfind)
    have hcongr : ∀ i,
        (mapFind (mapSet m.rules_by_id rule_id r') i).map
          (fun x => x.priority) =
        (mapFind m.rules_by_id i).map (fun x => x.priority) := by
      intro i
      by_cases hi : i = rule_id
      · subst hi
        rw [mapFind_set_self _ _ _ hcontains, hfind]
        rfl
      · rw [mapFind_set_ne _ _ _ _ hi]
    refine ⟨?_, ?_, ?_, ?_⟩
    · rw [mapSet_keys]; exact hm.keys_sorted
    · intro e he
      rcases mem_mapSet _ _ _ _ he with he | he
      · exact hm.id_eq_key e he
      · subst he
        simpa [r'] using hrid
    · rw [mapSet_keys]; exact hm.cache_perm
    · exact hm.cache_sorted.imp (fun hrel => RelP_congr hcongr hrel)

theorem RMInv_resetRuleStatistics {m : RuleManager} (hm : RMInv m)
    (rule_id : Int) : RMInv (m.resetRuleStatistics rule_id).1 := by
  unfold RuleManager.resetRuleStatistics
  cases hfind : mapFind m.rules_by_id rule_id with
  | none => exact hm
  | some r =>
    simp only
    set r' : ClassificationRule := { r with
      match_count := 0, last_match_time := 0 }
    have hcontains : containsKey m.rules_by_id rule_id = true := by
      simp [containsKey, hfind]
    have hrid : r.rule_id = rule_id := hm.id_eq_key _ (mapFind_mem hfind)
    have hcongr : ∀ i,
        (mapFind (mapSet m.rules_by_id rule_id r') i).map
          (fun x => x.priority) =
        (mapFind m.rules_by_id i).map (fun x => x.priority) := by
      intro i
      by_cases hi : i = rule_id
      · subst hi
        rw [mapFind_set_self _ _ _ hcontains, hfind]
        rfl
      · rw [mapFind_set_ne _ _ _ _ hi]
    refine ⟨?_, ?_, ?_, ?_⟩
    · rw [mapSet_keys]; exact hm.keys_sorted
    · intro e he
      rcases mem_mapSet _ _ _ _ he with he | he
      · exact hm.id_eq_key e he
      · subst he
        simpa [r'] using hrid
    · rw [mapSet_keys]; exact hm.cache_perm
    · exact hm.cache_sorted.imp (fun hrel => RelP_congr hcongr hrel)

theorem mapFind_map_value (m : List (Int × β)) (f : β → β) (k : Int) :
    mapFind (m.map (fun e => (e.1, f e.2))) k = (mapFind m k).map f := by
  induction m with
  | nil => simp [mapFind]
  | cons e t ih =>
    obtain ⟨k1, v1⟩ := e
    by_cases h1 : k = k1
    · subst h1
      simp [mapFind]
    · simp [mapFind, h1, ih]

theorem RMInv_resetAllRuleStatistics {m : RuleManager} (hm : RMInv m) :
    RMInv m.resetAllRuleStatistics := by
  unfold RuleManager.resetAllRuleStatistics
  simp only
  set f : ClassificationRule → ClassificationRule :=
    fun r => { r with match_count := 0, last_match_time := 0 }
  have hkeys : ((m.rules_by_id.map (fun e => (e.1, f e.2))).map
      (fun e => e.1)) = m.rules_by_id.map (fun e => e.1) := by
    rw [List.map_map]
    rfl
  have hcongr : ∀ i,
      (mapFind (m.rules_by_id.map (fun e => (e.1, f e.2))) i).map
        (fun x => x.priority) =
      (mapFind m.rules_by_id i).map (fun x => x.priority) := by
    intro i
    rw [mapFind_map_value]
    cases mapFind m.rules_by_id i <;> rfl
  refine ⟨?_, ?_, ?_, ?_⟩
  · rw [hkeys]; exact hm.keys_sorted
  · intro e he
    rcases List.mem_map.mp he with ⟨e0, he0, rfl⟩
    simpa [f] using hm.id_eq_key e0 he0
  · rw [hkeys]; exact hm.cache_perm
  · exact hm.cache_sorted.imp (fun hrel => RelP_congr hcongr hrel)

/-! ## The rule store reached by each facade operation -/

theorem addRule_rule_manager (c : PacketClassifier)
    (rule : ClassificationRule) :
    (c.addRule rule).1.rule_manager = (c.rule_manager.addRule rule).1 := by
  by_cases h : containsKey c.rule_manager.rules_by_id rule.rule_id
  · simp [PacketClassifier.addRule, RuleManager.addRule_of_contains _ _ h]
  · have hins := RuleManager.addRule_of_not_contains c.rule_manager rule
      (by simpa using h)
    have hfind : mapFind
        (mapInsert c.rule_manager.rules_by_id rule.rule_id rule)
        rule.rule_id = some rule :=
      mapFind_insert_self _ _ _ (by simpa using h)
    simp [PacketClassifier.addRule, hins,
      PacketClassifier.updateSpecializedStructuresForRule,
      RuleManager.getRule, hfind, apply_ite PacketClassifier.rule_manager]

theorem deleteRule_rule_manager (c : PacketClassifier) (rule_id : Int) :
    (c.deleteRule rule_id).1.rule_manager =
      (c.rule_manager.deleteRule rule_id).1 := by
  by_cases h : containsKey c.rule_manager.rules_by_id rule_id
  · simp [PacketClassifier.deleteRule,
      RuleManager.deleteRule_of_contains _ _ h]
  · simp [PacketClassifier.deleteRule,
      RuleManager.deleteRule_of_not_contains _ _ (by simpa using h)]

theorem modifyRule_rule_manager (c : PacketClassifier) (rule_id : Int)
    (new_rule_data : ClassificationRule) :
    (c.modifyRule rule_id new_rule_data).1.rule_manager =
      (c.rule_manager.modifyRule rule_id new_rule_data).1 := by
  cases hfind : mapFind c.rule_manager.rules_by_id rule_id with
  | none =>
    simp [PacketClassifier.modifyRule,
      RuleManager.modifyRule_of_none _ _ _ hfind]
  | some old =>
    have hmod := RuleManager.modifyRule_of_some c.rule_manager rule_id
      new_rule_data old hfind
    have hcontains : containsKey c.rule_manager.rules_by_id rule_id = true := by
      simp [containsKey, hfind]
    have hfind2 : mapFind
        (mapSet c.rule_manager.rules_by_id rule_id
          { new_rule_data with rule_id := rule_id }) rule_id =
        some { new_rule_data with rule_id := rule_id } :=
      mapFind_set_self _ _ _ hcontains
    simp [PacketClassifier.modifyRule, hmod,
      PacketClassifier.updateSpecializedStructuresForRule,
      RuleManager.getRule, hfind2, apply_ite PacketClassifier.rule_manager]

theorem classify_rule_manager (oracle : List String → String → Bool)
    (c : PacketClassifier) (header : PacketHeader) (now : Nat) :
    (c.classify oracle header now).1.rule_manager =
      match c.rule_manager.getRulesByPriority.find?
          (fun r => r.enabled && r.filter.matches header) with
      | some rule => (c.rule_manager.incrementRuleMatchCount rule.rule_id now).1
      | none => c.rule_manager := by
  unfold PacketClassifier.classify
  cases h : c.rule_manager.getRulesByPriority.find?
      (fun r => r.enabled && r.filter.matches header) <;> simp [h]

/-- Classifier-state invariant: the rule store satisfies `RMInv`. -/
def CInv (c : PacketClassifier) : Prop :=
  RMInv c.rule_manager

theorem CInv_create (b : Bool) : CInv (PacketClassifier.create b) :=
  RMInv_new

theorem CInv_applyOp {c : PacketClassifier}
    (oracle : List String → String → Bool) (hc : CInv c) (op : AdminOp) :
    CInv (c.applyOp oracle op) := by
  cases op with
  | add rule =>
    unfold CInv
    rw [PacketClassifier.applyOp, addRule_rule_manager]
    exact RMInv_addRule hc rule
  | del rule_id =>
    unfold CInv
    rw [PacketClassifier.applyOp, deleteRule_rule_manager]
    exact RMInv_deleteRule hc rule_id
  | modify rule_id new_rule_data =>
    unfold CInv
    rw [PacketClassifier.applyOp, modifyRule_rule_manager]
    exact RMInv_modifyRule hc rule_id new_rule_data
  | classifyOp header now =>
    unfold CInv
    rw [PacketClassifier.applyOp, classify_rule_manager]
    cases c.rule_manager.getRulesByPriority.find?
        (fun r => r.enabled && r.filter.matches header) with
    | none => exact hc
    | some rule => exact RMInv_incrementRuleMatchCount hc rule.rule_id now
  | getStats => exact hc
  | getRuleStats rule_id => exact hc
  | resetStats =>
    unfold CInv
    exact RMInv_resetAllRuleStatistics hc
  | resetRuleStats rule_id =>
    unfold CInv
    exact RMInv_resetRuleStatistics hc rule_id

theorem CInv_applyOps (oracle : List String → String → Bool) (b : Bool)
    (ops : List AdminOp) :
    CInv ((PacketClassifier.create b).applyOps oracle ops) := by
  suffices h : ∀ (c : PacketClassifier), CInv c →
      CInv (c.applyOps oracle ops) from
    h _ (CInv_create b)
  induction ops with
  | nil => intro c hc; exact hc
  | cons op rest ih =>
    intro c hc
    exact ih _ (CInv_applyOp oracle hc op)

/-! ## The priority view of a reachable state -/

theorem getRulesByPriority_perm {m : RuleManager} (hm : RMInv m) :
    List.Perm m.getRulesByPriority (m.rules_by_id.map (fun e => e.2)) := by
  unfold RuleManager.getRulesByPriority
  have h1 := hm.cache_perm.filterMap (mapFind m.rules_by_id)
  rw [filterMap_find_keys_eq_values _
    (nodup_keys_of_pairwise hm.keys_sorted)] at h1
  exact h1

theorem pairwise_resolved (m : List (Int × ClassificationRule))
    (cache : List Int) (hb : ∀ e ∈ m, e.2.rule_id = e.1)
    (hp : cache.Pairwise (RelP m)) :
    (cache.filterMap (mapFind m)).Pairwise byPriorityThenId := by
  induction cache with
  | nil => simp
  | cons i t ih =>
    rcases List.pairwise_cons.mp hp with ⟨hi, ht⟩
    cases hfi : mapFind m i with
    | none =>
      simp only [List.filterMap_cons, hfi]
      exact ih ht
    | some a =>
      simp only [List.filterMap_cons, hfi]
      refine List.pairwise_cons.mpr ⟨?_, ih ht⟩
      intro b hbmem
      rcases List.mem_filterMap.mp hbmem with ⟨j, hj, hfj⟩
      have hrel := hi j hj a b hfi hfj
      have ha_id : a.rule_id = i := hb _ (mapFind_mem hfi)
      have hb_id : b.rule_id = j := hb _ (mapFind_mem hfj)
      unfold byPriorityThenId
      rcases hrel with h | ⟨h1, h2⟩
      · exact Or.inl h
      · exact Or.inr ⟨h1, by omega⟩

theorem getRulesByPriority_pairwise {m : RuleManager} (hm : RMInv m) :
    m.getRulesByPriority.Pairwise byPriorityThenId :=
  pairwise_resolved _ _ hm.id_eq_key hm.cache_sorted

/-- The classification result as a function of the priority walk. -/
theorem classify_result (oracle : List String → String → Bool)
    (c : PacketClassifier) (header : PacketHeader) (now : Nat) :
    (c.classify oracle header now).2 =
      match c.rule_manager.getRulesByPriority.find?
          (fun r => r.enabled && r.filter.matches header) with
      | some rule => { matched := true, matched_rule_id := rule.rule_id,
                       actions := rule.actions }
      | none => { matched := false, matched_rule_id := -1, actions := {} } := by
  unfold PacketClassifier.classify
  cases h : c.rule_manager.getRulesByPriority.find?
      (fun r => r.enabled && r.filter.matches header) <;> simp [h]

/-! ## C3 — the priority-ordered view

`RuleManager::rebuildPriorityCache` sorts with `std::sort`, which C++ does
not require to be stable: a conforming implementation may put equal-priority
rules in any relative order (libstdc++'s introsort does scramble ties beyond
its small-range insertion-sort regime). The deterministic
`rebuildPriorityCache` above is therefore only one conforming outcome; the
program guarantees no particular tie order. `StdSortOutcome` states the
`std::sort` postcondition itself — a permutation of the input with no
adjacent pair inverted under the comparator `a->priority > b->priority` — so
properties quantified over it hold for every conforming implementation. -/

/-- The `std::sort` postcondition for the sort in
`RuleManager::rebuildPriorityCache` (comparator `a->priority > b->priority`):
the output is some permutation of the input that is pairwise non-inverted
under the comparator; the relative order of equal-priority entries is
unspecified. -/
def StdSortOutcome (inp out : List (Int × ClassificationRule)) : Prop :=
  List.Perm out inp ∧
  out.Pairwise (fun a b => ¬ (b.2.priority > a.2.priority))

/-- A conforming result of `RuleManager::rebuildPriorityCache` against a
store: the pointer cache lists the node keys of some `std::sort`-conforming
arrangement of the map's nodes. -/
def RebuildCacheOutcome (rules_by_id : List (Int × ClassificationRule))
    (cache : List Int) : Prop :=
  ∃ view, StdSortOutcome rules_by_id view ∧ cache = view.map (fun e => e.1)

/-- A rule with id 1 at priority 100. -/
def tie_rule_one : ClassificationRule :=
  { rule_id := 1, priority := 100, filter := {}, actions := {} }

/-- A rule with id 2, also at priority 100. -/
def tie_rule_two : ClassificationRule :=
  { rule_id := 2, priority := 100, filter := {}, actions := {} }

/-- Counterexample to C3 as stated: `std::sort` with comparator
`a->priority > b->priority` is permitted to order two equal-priority rules
with the higher id first. Against the store holding rules 1 and 2 at
priority 100, the cache `[2, 1]` is a conforming rebuild outcome, and the
resulting `getRulesByPriority` view `[rule 2, rule 1]` violates the claimed
"(−priority, id)" order: the tie is not broken by ascending rule id. -/
theorem c3_counterexample :
    RebuildCacheOutcome [(1, tie_rule_one), (2, tie_rule_two)] [2, 1] ∧
    RuleManager.getRulesByPriority
        ⟨[(1, tie_rule_one), (2, tie_rule_two)], [2, 1]⟩
      = [tie_rule_two, tie_rule_one] ∧
    ¬ List.Pairwise byPriorityThenId [tie_rule_two, tie_rule_one] := by
  refine ⟨⟨[(2, tie_rule_two), (1, tie_rule_one)], ⟨?_, ?_⟩, rfl⟩, ?_, ?_⟩
  · exact List.Perm.swap _ _ _
  · simp [tie_rule_one, tie_rule_two]
  · rfl
  · intro hp
    have h := (List.pairwise_cons.mp hp).1 tie_rule_one (by simp)
    rcases h with h | ⟨h1, h2⟩
    · simp [tie_rule_one, tie_rule_two, byPriorityThenId] at h
    · simp [tie_rule_one, tie_rule_two] at h2

/-- C3 (amended): after every sequence of public-API operations and for
every `std::sort`-conforming outcome of the priority-cache rebuild against
the current store, the view returned by `getRulesByPriority` contains
exactly the rules of the ID-keyed store (it is a permutation of the map's
values) and is ordered by non-increasing priority; the relative order of
equal-priority rules is unspecified (`std::sort` is not stable — see
`c3_counterexample`). -/
theorem c3_amended_view_perm_sorted_desc (b : Bool)
    (oracle : List String → String → Bool) (ops : List AdminOp)
    (cache : List Int)
    (hout : RebuildCacheOutcome
      (((PacketClassifier.create b).applyOps oracle
          ops).rule_manager.rules_by_id) cache) :
    List.Perm
      (RuleManager.getRulesByPriority
        ⟨((PacketClassifier.create b).applyOps oracle
            ops).rule_manager.rules_by_id, cache⟩)
      ((((PacketClassifier.create b).applyOps oracle
          ops).rule_manager.rules_by_id).map (fun e => e.2)) ∧
    (RuleManager.getRulesByPriority
      ⟨((PacketClassifier.create b).applyOps oracle
          ops).rule_manager.rules_by_id, cache⟩).Pairwise
      (fun a b => a.priority ≥ b.priority) := by
  have hinv : RMInv ((PacketClassifier.create b).applyOps oracle
      ops).rule_manager := CInv_applyOps oracle b ops
  obtain ⟨view, ⟨hperm, hsorted⟩, rfl⟩ := hout
  have hnd := nodup_keys_of_pairwise hinv.keys_sorted
  have hall : ∀ e ∈ view,
      mapFind (((PacketClassifier.create b).applyOps oracle
        ops).rule_manager.rules_by_id) e.1 = some e.2 := by
    intro e he
    obtain ⟨k, v⟩ := e
    exact mapFind_eq_of_mem_nodup (hperm.subset he) hnd
  have hview : RuleManager.getRulesByPriority
      ⟨((PacketClassifier.create b).applyOps oracle
          ops).rule_manager.rules_by_id, view.map (fun e => e.1)⟩ =
      view.map (fun e => e.2) := by
    unfold RuleManager.getRulesByPriority
    exact filterMap_find_of_forall_mem view _ hall
  rw [hview]
  refine ⟨hperm.map _, ?_⟩
  refine List.pairwise_map.mpr ?_
  exact hsorted.imp (fun h => by omega)

theorem c3_witness :
    RebuildCacheOutcome
        (((PacketClassifier.create true).applyOps (fun (_ : List String) (_ : String) => true)
            [AdminOp.add tie_rule_one, AdminOp.add tie_rule_two]
          ).rule_manager.rules_by_id) [2, 1] ∧
    (List.Perm
        (RuleManager.getRulesByPriority
          ⟨((PacketClassifier.create true).applyOps (fun (_ : List String) (_ : String) => true)
              [AdminOp.add tie_rule_one, AdminOp.add tie_rule_two]
            ).rule_manager.rules_by_id, [2, 1]⟩)
        ((((PacketClassifier.create true).applyOps (fun (_ : List String) (_ : String) => true)
            [AdminOp.add tie_rule_one, AdminOp.add tie_rule_two]
          ).rule_manager.rules_by_id).map (fun e => e.2)) ∧
      (RuleManager.getRulesByPriority
        ⟨((PacketClassifier.create true).applyOps (fun (_ : List String) (_ : String) => true)
            [AdminOp.add tie_rule_one, AdminOp.add tie_rule_two]
          ).rule_manager.rules_by_id, [2, 1]⟩).Pairwise
        (fun a b => a.priority ≥ b.priority)) :=
  have hout : RebuildCacheOutcome
      (((PacketClassifier.create true).applyOps (fun (_ : List String) (_ : String) => true)
          [AdminOp.add tie_rule_one, AdminOp.add tie_rule_two]
        ).rule_manager.rules_by_id) [2, 1] :=
    ⟨[(2, tie_rule_two), (1, tie_rule_one)], ⟨by decide, by decide⟩, by decide⟩
  ⟨hout, c3_amended_view_perm_sorted_desc true (fun (_ : List String) (_ : String) => true)
    [AdminOp.add tie_rule_one, AdminOp.add tie_rule_two] [2, 1] hout⟩

/-! ## C5 / C9 — inverted port ranges -/

/-- A port range `[lo, hi]` with `lo > hi` on either side of the filter. -/
def badPortRange (f : PacketFilter) : Bool :=
  decide (f.source_port_low > f.source_port_high) ||
  decide (f.dest_port_low > f.dest_port_high)

theorem matches_false_of_badPortRange (f : PacketFilter)
    (header : PacketHeader) (hbad : badPortRange f = true) :
    f.matches header = false := by
  unfold badPortRange at hbad
  simp only [Bool.or_eq_true, decide_eq_true_eq] at hbad
  unfold PacketFilter.matches
  split_ifs with h1 h2 h3
  · rfl
  · rfl
  · rfl
  · exfalso
    rcases hbad with hbad | hbad
    · exact h2 ⟨Or.inl (by omega), by omega⟩
    · exact h3 ⟨Or.inl (by omega), by omega⟩

/-- A fresh-id `addRule` always succeeds and stores the rule verbatim (the
facade performs no filter validation and `detectConflict` is a placeholder
returning `false`). -/
theorem addRule_fresh_succeeds (c : PacketClassifier)
    (rule : ClassificationRule)
    (hfresh : containsKey c.rule_manager.rules_by_id rule.rule_id = false) :
    (c.addRule rule).2 = true ∧
    (c.addRule rule).1.rule_manager.getRule rule.rule_id = some rule := by
  have hins := RuleManager.addRule_of_not_contains c.rule_manager rule hfresh
  have hfind : mapFind
      (mapInsert c.rule_manager.rules_by_id rule.rule_id rule)
      rule.rule_id = some rule :=
    mapFind_insert_self _ _ _ hfresh
  constructor
  · simp [PacketClassifier.addRule, hins,
      PacketClassifier.updateSpecializedStructuresForRule,
      RuleManager.getRule, hfind]
  · rw [addRule_rule_manager, hins]
    simpa [RuleManager.getRule] using hfind

/-- The rule of scenario used for C5/C9: an inverted source-port range
`[5, 3]`. -/
def invalid_range_rule : ClassificationRule :=
  { rule_id := 1, priority := 10,
    filter := { source_port_low := 5, source_port_high := 3 },
    actions := {} }

/-- Counterexample to C5 as stated: `addRule` on a fresh classifier accepts
the rule whose source-port range is `[5, 3]` (`low > high`) — it returns
`true` (not a failure, and there is no `InvalidRule` error kind anywhere in
the sources, which report plain booleans) and the rule enters the store. -/
theorem c5_counterexample :
    ((PacketClassifier.create true).addRule invalid_range_rule).2 = true ∧
    ((PacketClassifier.create true).addRule
        invalid_range_rule).1.rule_manager.getRule 1 =
      some invalid_range_rule := by
  constructor
  · decide
  · decide

/-- C5 (amended): `addRule` performs no port-range validation: a rule whose
filter carries a range `[lo, hi]` with `lo > hi` is not rejected — whenever
its id is fresh the call returns success and the rule enters the store
verbatim. (Such a rule can never match any packet; see C9.) -/
theorem c5_amended_inverted_range_accepted (c : PacketClassifier)
    (rule : ClassificationRule)
    (hbad : badPortRange rule.filter = true)
    (hfresh : containsKey c.rule_manager.rules_by_id rule.rule_id = false) :
    (c.addRule rule).2 = true ∧
    (c.addRule rule).1.rule_manager.getRule rule.rule_id = some rule :=
  addRule_fresh_succeeds c rule hfresh

/-- Witness for C5 (amended) at a concrete input. -/
theorem c5_witness :
    (badPortRange invalid_range_rule.filter = true ∧
     containsKey (PacketClassifier.create true).rule_manager.rules_by_id
       invalid_range_rule.rule_id = false) ∧
    ((PacketClassifier.create true).addRule invalid_range_rule).2 = true :=
  ⟨⟨by decide, by decide⟩,
   (c5_amended_inverted_range_accepted (PacketClassifier.create true)
     invalid_range_rule (by decide) (by decide)).1⟩

/-- C9: a rule whose filter carries a source or destination port range with
`low > high` (necessarily not both zero) is accepted by `addRule` whenever its
id is fresh, yet can never match: `PacketFilter::matches` returns `false` on
it for every header, and consequently `classify` on any reachable state never
reports that rule's id as the match. -/
theorem c9_inverted_range_accepted_never_matches (b : Bool)
    (oracle : List String → String → Bool) (ops : List AdminOp)
    (rule : ClassificationRule)
    (hbad : badPortRange rule.filter = true) :
    (containsKey ((PacketClassifier.create b).applyOps oracle
        ops).rule_manager.rules_by_id rule.rule_id = false →
      (((PacketClassifier.create b).applyOps oracle ops).addRule rule).2 =
        true) ∧
    (∀ header, rule.filter.matches header = false) ∧
    (∀ i r0 header now,
      ((PacketClassifier.create b).applyOps oracle
          ops).rule_manager.getRule i = some r0 →
      badPortRange r0.filter = true →
      ((((PacketClassifier.create b).applyOps oracle ops).classify oracle
          header now).2.matched = true →
        (((PacketClassifier.create b).applyOps oracle ops).classify oracle
            header now).2.matched_rule_id ≠ i)) := by
  have hinv : RMInv ((PacketClassifier.create b).applyOps oracle
      ops).rule_manager := CInv_applyOps oracle b ops
  refine ⟨?_, ?_, ?_⟩
  · intro hfresh
    exact (addRule_fresh_succeeds _ rule hfresh).1
  · intro header
    exact matches_false_of_badPortRange rule.filter header hbad
  · intro i r0 header now hfind0 hbad0
    rw [classify_result]
    cases hfo : ((PacketClassifier.create b).applyOps oracle
        ops).rule_manager.getRulesByPriority.find?
        (fun r => r.enabled && r.filter.matches header) with
    | none => intro hmatch; simp at hmatch
    | some rsel =>
      intro _hmatch
      simp only [ne_eq]
      intro hid
      have hpred := List.find?_some hfo
      have hmem := List.mem_of_find?_eq_some hfo
      unfold RuleManager.getRulesByPriority at hmem
      rcases List.mem_filterMap.mp hmem with ⟨j, _hj, hfj⟩
      have hjid : rsel.rule_id = j := hinv.id_eq_key _ (mapFind_mem hfj)
      have hij : j = i := by omega
      subst hij
      rw [show mapFind ((PacketClassifier.create b).applyOps oracle
          ops).rule_manager.rules_by_id j = some r0 from hfind0] at hfj
      obtain rfl := Option.some.inj hfj
      have hmf := matches_false_of_badPortRange r0.filter header hbad0
      simp [hmf] at hpred

/-- Witness for C9 at a concrete input: the `[5, 3]` source-port rule. -/
theorem c9_witness :
    badPortRange invalid_range_rule.filter = true ∧
    (∀ header, invalid_range_rule.filter.matches header = false) :=
  ⟨by decide,
   (c9_inverted_range_accepted_never_matches true (fun _ _ => false) []
     invalid_range_rule (by decide)).2.1⟩

/-! ## C2 — match_count monotonicity -/

/-- An all-wildcard rule used in concrete scenarios. -/
def wildcard_rule : ClassificationRule :=
  { rule_id := 1, priority := 10, filter := {}, actions := {} }

/-- An arbitrary header (matches every wildcard filter). -/
def any_header : PacketHeader :=
  { source_ip := 0, dest_ip := 0, source_port := 0, dest_port := 0,
    protocol := 0 }

/-- A Bloom oracle that always answers "possibly". -/
def trueOracle : List String → String → Bool := fun _ _ => true

/-- Counterexample to C2 as stated: `modifyRule` overwrites the stored rule
wholesale (`it->second = new_rule_data`), so it replaces `match_count` with
the count carried by `new_rule_data`. Adding a wildcard rule, classifying one
matching packet (count becomes 1) and then modifying the rule with fresh rule
data (count 0) drops the surviving rule's `match_count` from 1 to 0. -/
theorem c2_counterexample :
    ((((PacketClassifier.create true).addRule wildcard_rule).1.classify
        trueOracle any_header 0).1.getRuleStatistics 1 = 1) ∧
    (((((PacketClassifier.create true).addRule wildcard_rule).1.classify
        trueOracle any_header 0).1.modifyRule 1
          wildcard_rule).1.getRuleStatistics 1 = 0) := by
  constructor
  · decide
  · decide

/-- The operations that never decrease a surviving rule's `match_count`:
everything except `modifyRule` (which overwrites the count) and the two
reset calls (excluded by the claim itself). -/
def AdminOp.monotoneSafe : AdminOp → Bool
  | AdminOp.modify _ _ => false
  | AdminOp.resetStats => false
  | AdminOp.resetRuleStats _ => false
  | _ => true

/-- C2 (amended): for every rule surviving an operation other than
`modifyRule` and the statistics resets — i.e. `addRule`, `deleteRule`,
`classify` and the statistics queries — `match_count` does not decrease.
(`modifyRule` is excluded because it overwrites `match_count` with the value
carried by the replacement rule data; the `uint64_t` counter is also assumed
one step below its wrap-around.) -/
theorem c2_amended_match_count_monotone (c : PacketClassifier)
    (oracle : List String → String → Bool) (op : AdminOp)
    (hop : op.monotoneSafe = true)
    (hnd : (c.rule_manager.rules_by_id.map (fun e => e.1)).Nodup)
    (rid : Int) (r r' : ClassificationRule)
    (h1 : mapFind c.rule_manager.rules_by_id rid = some r)
    (h2 : mapFind (c.applyOp oracle op).rule_manager.rules_by_id rid = some r')
    (hwrap : r.match_count + 1 < 2 ^ 64) :
    r.match_count ≤ r'.match_count := by
  cases op with
  | add rule =>
    rw [PacketClassifier.applyOp, addRule_rule_manager] at h2
    by_cases hcon : containsKey c.rule_manager.rules_by_id rule.rule_id
    · rw [RuleManager.addRule_of_contains _ _ hcon] at h2
      rw [h1] at h2
      obtain rfl := Option.some.inj h2
      exact le_refl _
    · have hcon' : containsKey c.rule_manager.rules_by_id rule.rule_id
          = false := by simpa using hcon
      rw [RuleManager.addRule_of_not_contains _ _ hcon'] at h2
      by_cases hid : rid = rule.rule_id
      · subst hid
        simp [containsKey, h1] at hcon'
      · rw [show mapFind (mapInsert c.rule_manager.rules_by_id rule.rule_id
            rule) rid = mapFind c.rule_manager.rules_by_id rid from
            mapFind_insert_ne _ _ _ _ hid] at h2
        rw [h1] at h2
        obtain rfl := Option.some.inj h2
        exact le_refl _
  | del rule_id =>
    rw [PacketClassifier.applyOp, deleteRule_rule_manager] at h2
    by_cases hcon : containsKey c.rule_manager.rules_by_id rule_id
    · rw [RuleManager.deleteRule_of_contains _ _ hcon] at h2
      by_cases hid : rid = rule_id
      · subst hid
        rw [mapFind_erase_self_nodup _ _ hnd] at h2
        cases h2
      · rw [mapFind_erase_ne _ _ _ hid] at h2
        rw [h1] at h2
        obtain rfl := Option.some.inj h2
        exact le_refl _
    · rw [RuleManager.deleteRule_of_not_contains _ _ (by simpa using hcon)]
        at h2
      rw [h1] at h2
      obtain rfl := Option.some.inj h2
      exact le_refl _
  | modify rule_id new_rule_data => simp [AdminOp.monotoneSafe] at hop
  | classifyOp header now =>
    rw [PacketClassifier.applyOp, classify_rule_manager] at h2
    cases hsel : c.rule_manager.getRulesByPriority.find?
        (fun r => r.enabled && r.filter.matches header) with
    | none =>
      simp only [hsel] at h2
      rw [h1] at h2
      obtain rfl := Option.some.inj h2
      exact le_refl _
    | some rsel =>
      simp only [hsel] at h2
      unfold RuleManager.incrementRuleMatchCount at h2
      cases hfr : mapFind c.rule_manager.rules_by_id rsel.rule_id with
      | none =>
        simp only [hfr] at h2
        rw [h1] at h2
        obtain rfl := Option.some.inj h2
        exact le_refl _
      | some rx =>
        simp only [hfr] at h2
        by_cases hid : rid = rsel.rule_id
        · subst hid
          have hcon : containsKey c.rule_manager.rules_by_id rsel.rule_id
              = true := by
            simp [containsKey, hfr]
          rw [mapFind_set_self _ _ _ hcon] at h2
          rw [h1] at hfr
          obtain rfl := Option.some.inj hfr
          obtain rfl := Option.some.inj h2
          simp only
          rw [Nat.mod_eq_of_lt hwrap]
          omega
        · rw [mapFind_set_ne _ _ _ _ hid] at h2
          rw [h1] at h2
          obtain rfl := Option.some.inj h2
          exact le_refl _
  | getStats =>
    rw [PacketClassifier.applyOp] at h2
    rw [h1] at h2
    obtain rfl := Option.some.inj h2
    exact le_refl _
  | getRuleStats rule_id =>
    rw [PacketClassifier.applyOp] at h2
    rw [h1] at h2
    obtain rfl := Option.some.inj h2
    exact le_refl _
  | resetStats => simp [AdminOp.monotoneSafe] at hop
  | resetRuleStats rule_id => simp [AdminOp.monotoneSafe] at hop

/-- Witness for C2 (amended) at a concrete input: one classification bumps
the stored wildcard rule's count from 0 to 1, which does not decrease it. -/
theorem c2_witness :
    ((AdminOp.classifyOp any_header 0).monotoneSafe = true ∧
     mapFind (((PacketClassifier.create true).addRule
       wildcard_rule).1.rule_manager.rules_by_id) 1 = some wildcard_rule) ∧
    wildcard_rule.match_count ≤
      ({ wildcard_rule with match_count := 1 } :
        ClassificationRule).match_count :=
  ⟨⟨by decide, by decide⟩,
   c2_amended_match_count_monotone
     (((PacketClassifier.create true).addRule wildcard_rule).1) trueOracle
     (AdminOp.classifyOp any_header 0) (by decide) (by decide) 1
     wildcard_rule { wildcard_rule with match_count := 1 } (by decide)
     (by decide) (by decide)⟩

/-! ## C1 — classify versus a linear-scan reference -/

/-- Reference matcher over the filter semantics the code actually evaluates:
protocol (0 = wildcard) and the two port-range windows (`(0, 0)` = unset).
IP prefixes are NOT part of this semantics: `classify` never consults the
tries and `PacketFilter::matches` ignores the prefix strings. -/
def referenceMatches (f : PacketFilter) (header : PacketHeader) : Bool :=
  decide ((f.protocol = 0 ∨ f.protocol = header.protocol) ∧
    ((f.source_port_low = 0 ∧ f.source_port_high = 0) ∨
     (f.source_port_low ≤ header.source_port ∧
      header.source_port ≤ f.source_port_high)) ∧
    ((f.dest_port_low = 0 ∧ f.dest_port_high = 0) ∨
     (f.dest_port_low ≤ header.dest_port ∧
      header.dest_port ≤ f.dest_port_high)))

theorem matches_eq_referenceMatches (f : PacketFilter)
    (header : PacketHeader) :
    f.matches header = referenceMatches f header := by
  unfold PacketFilter.matches referenceMatches
  split_ifs with h1 h2 h3
  · symm
    rw [decide_eq_false_iff_not]
    intro hP
    exact absurd hP.1 (by omega)
  · symm
    rw [decide_eq_false_iff_not]
    intro hP
    have := hP.2.1
    omega
  · symm
    rw [decide_eq_false_iff_not]
    intro hP
    have := hP.2.2
    omega
  · symm
    rw [decide_eq_true_eq]
    refine ⟨by omega, by omega, by omega⟩

/-- The reference priority order: the store's rules sorted (stably, by
insertion sort) with descending priority and ascending rule id on ties. -/
def referenceOrder (m : List (Int × ClassificationRule)) :
    List ClassificationRule :=
  insertionSort
    (fun a b => decide (a.priority > b.priority ∨
      (a.priority = b.priority ∧ a.rule_id ≤ b.rule_id)))
    (m.map (fun e => e.2))

/-- The linear-scan reference classifier over the current rule set: first
enabled rule in reference priority order whose filter (ports and protocol)
matches. -/
def referenceClassify (m : List (Int × ClassificationRule))
    (header : PacketHeader) : ClassificationResult :=
  match (referenceOrder m).find?
      (fun r => r.enabled && referenceMatches r.filter header) with
  | some r => { matched := true, matched_rule_id := r.rule_id,
                actions := r.actions }
  | none => { matched := false, matched_rule_id := -1, actions := {} }

theorem insertSorted_lex_pairwise (x : ClassificationRule)
    (l : List ClassificationRule) (hl : l.Pairwise byPriorityThenId)
    (hx : ∀ y ∈ l, x.rule_id < y.rule_id) :
    (insertSorted
      (fun a b => decide (a.priority > b.priority ∨
        (a.priority = b.priority ∧ a.rule_id ≤ b.rule_id))) x l).Pairwise
      byPriorityThenId := by
  induction l with
  | nil => simp [insertSorted]
  | cons y ys ih =>
    rcases List.pairwise_cons.mp hl with ⟨hy, hys⟩
    rw [insertSorted]
    by_cases hc : x.priority > y.priority ∨
        (x.priority = y.priority ∧ x.rule_id ≤ y.rule_id)
    · rw [if_pos (by simpa using hc)]
      refine List.pairwise_cons.mpr ⟨?_, hl⟩
      intro z hz
      rcases List.mem_cons.mp hz with hz | hz
      · subst hz
        unfold byPriorityThenId
        rcases hc with hc | hc
        · exact Or.inl hc
        · exact Or.inr ⟨hc.1, hx _ (List.mem_cons.mpr (Or.inl rfl))⟩
      · have hyz := hy z hz
        unfold byPriorityThenId at hyz ⊢
        have hz_id : x.rule_id < z.rule_id :=
          hx _ (List.mem_cons.mpr (Or.inr hz))
        rcases hc with hc | hc <;> rcases hyz with hyz | hyz
        · exact Or.inl (by omega)
        · exact Or.inl (by omega)
        · exact Or.inl (by omega)
        · exact Or.inr ⟨by omega, hz_id⟩
    · rw [if_neg (by simpa using hc)]
      refine List.pairwise_cons.mpr
        ⟨?_, ih hys (fun z hz => hx _ (List.mem_cons.mpr (Or.inr hz)))⟩
      intro w hw
      rcases mem_insertSorted.mp hw with hw | hw
      · subst hw
        unfold byPriorityThenId
        push_neg at hc
        rcases lt_or_eq_of_le hc.1 with h' | h'
        · exact Or.inl h'
        · exact Or.inr ⟨h'.symm, hc.2 h'⟩
      · exact hy w hw

theorem referenceOrder_pairwise (m : List (Int × ClassificationRule))
    (hs : (m.map (fun e => e.1)).Pairwise (· < ·))
    (hb : ∀ e ∈ m, e.2.rule_id = e.1) :
    (referenceOrder m).Pairwise byPriorityThenId := by
  have hvals : (m.map (fun e => e.2)).Pairwise
      (fun a b => a.rule_id < b.rule_id) := by
    refine List.pairwise_map.mpr ?_
    have h1 : m.Pairwise (fun a b => a.1 < b.1) := List.pairwise_map.mp hs
    refine h1.imp_of_mem ?_
    intro a b ha hb' hab
    rw [hb a ha, hb b hb']
    exact hab
  unfold referenceOrder
  generalize hgen : m.map (fun e => e.2) = l at hvals
  clear hgen hs hb
  induction l with
  | nil => simp [insertionSort]
  | cons x xs ih =>
    rcases List.pairwise_cons.mp hvals with ⟨hx, hxs⟩
    rw [insertionSort]
    refine insertSorted_lex_pairwise x _ (ih hxs) ?_
    intro y hy
    exact hx y ((insertionSort_perm _ xs).mem_iff.mp hy)

/-- On every reachable state the stale-tolerant cached view walked by
`classify` coincides with the freshly sorted reference order of the store. -/
theorem view_eq_referenceOrder {m : RuleManager} (hm : RMInv m) :
    m.getRulesByPriority = referenceOrder m.rules_by_id := by
  refine List.eq_of_perm_of_sorted (r := byPriorityThenId) ?_ ?_ ?_
  · exact (getRulesByPriority_perm hm).trans
      (insertionSort_perm _ _).symm
  · exact getRulesByPriority_pairwise hm
  · exact referenceOrder_pairwise _ hm.keys_sorted hm.id_eq_key

/-! ### The S2 scenario (literal values from the spec) -/

def s2_rule1 : ClassificationRule :=
  { rule_id := 1, priority := 100,
    filter := { source_ip_pfx := "10.0.0.0/8" },
    actions := { primary_action := ActionType.DROP } }

def s2_rule2 : ClassificationRule :=
  { rule_id := 2, priority := 200,
    filter := { source_ip_pfx := "10.1.0.0/16" },
    actions := { primary_action := ActionType.FORWARD, next_hop_id := 5 } }

def s2_header : PacketHeader :=
  { source_ip := 0x0A020203, dest_ip := 0x08080808, source_port := 33333,
    dest_port := 80, protocol := 0 }

/-- Counterexample to C1 as stated: in scenario S2 (rules 10.0.0.0/8 at
priority 100 and 10.1.0.0/16 at priority 200) classifying the packet with
source ip 0x0A020203 (= 10.2.2.3, covered only by 10/8) returns rule 2, not
the claimed rule 1: IP prefixes never participate in the match
(`PacketFilter::matches` ignores them and the tries are never consulted), so
the higher-priority rule 2 matches first. -/
theorem c1_counterexample :
    (((((PacketClassifier.create true).addRule s2_rule1).1.addRule
        s2_rule2).1.classify trueOracle s2_header 0).2.matched_rule_id = 2) ∧
    (2 : Int) ≠ 1 := by
  constructor
  · decide
  · decide

/-- C1 (amended): for every sequence of public-API operations and every
header, `classify` returns exactly the result of a linear-scan reference
implementation over the current rule set in priority order — but evaluating
only the port-range and protocol semantics of enabled rules; the IP-prefix
components of the filters do not participate (in S2 the result is therefore
rule 2, not rule 1). -/
theorem c1_amended_classify_refines_port_protocol_scan (b : Bool)
    (oracle : List String → String → Bool) (ops : List AdminOp)
    (header : PacketHeader) (now : Nat) :
    (((PacketClassifier.create b).applyOps oracle ops).classify oracle
        header now).2 =
      referenceClassify (((PacketClassifier.create b).applyOps oracle
        ops).rule_manager.rules_by_id) header := by
  have hinv : RMInv ((PacketClassifier.create b).applyOps oracle
      ops).rule_manager := CInv_applyOps oracle b ops
  rw [classify_result]
  unfold referenceClassify
  rw [view_eq_referenceOrder hinv]
  have hpred : (fun r : ClassificationRule =>
      r.enabled && r.filter.matches header) =
      (fun r : ClassificationRule =>
        r.enabled && referenceMatches r.filter header) := by
    funext r
    rw [matches_eq_referenceMatches]
  rw [hpred]

/-! ## BloomFilter (`src/data_structures/bloom_filter.cpp`)

The bit array is a `List Bool` of length `bit_array_size`. `hashFunction1`
is `std::hash<std::string>` — implementation-defined but a fixed deterministic
function of the input bytes within one process — so it is a parameter
`h1fn` universally quantified in the theorems; its value is normalised to
`uint64_t` range. `hashFunction2` is the DJB2 loop, embedded concretely with
`uint64_t` wrap-around. The double/FP-rate constructor involves floating
point and is not needed by the claims; the `(size, num_hashes)` constructor
is embedded. -/

structure BloomFilter where
  bit_array_size : Nat
  num_hash_functions : Nat
  bit_array : List Bool
  current_insertions : Nat
deriving DecidableEq, Repr

/-- The `BloomFilter(uint64_t size, int num_hashes)` constructor: size 0
defaults to 1024, non-positive k defaults to 3; the bit array is allocated
all-false. -/
def BloomFilter.create (size : Nat) (num_hashes : Int) : BloomFilter :=
  let m := if size = 0 then 1024 else size
  let k := if num_hashes ≤ 0 then 3 else num_hashes.toNat
  { bit_array_size := m, num_hash_functions := k,
    bit_array := List.replicate m false, current_insertions := 0 }

/-- `BloomFilter::hashFunction2`: the DJB2 loop
`hash = hash * 33 + c` over the bytes, in `uint64_t` arithmetic. -/
def hashFunction2 (data : List Nat) : Nat :=
  data.foldl (fun h c => (h * 33 + c) % 2 ^ 64) 5381

/-- `BloomFilter::hash`: k positions in `[0, m)`. Position 0 is `h1 mod m`,
position 1 is `h2 mod m` (when k > 1), and positions `i ≥ 2` use the
Kirsch-Mitzenmacher combination `(h1 + i * (h2 + i + 1)) mod 2^64 mod m`. -/
def BloomFilter.hash (h1fn : List Nat → Nat) (bf : BloomFilter)
    (data : List Nat) : List Nat :=
  if bf.num_hash_functions = 0 ∨ bf.bit_array_size = 0 then []
  else
    let h1 := h1fn data % 2 ^ 64
    let h2 := if bf.num_hash_functions > 1 then hashFunction2 data else 0
    (List.range bf.num_hash_functions).map (fun i =>
      if i = 0 then h1 % bf.bit_array_size
      else if i = 1 ∧ bf.num_hash_functions > 1 then h2 % bf.bit_array_size
      else ((h1 + i * (h2 + i + 1)) % 2 ^ 64) % bf.bit_array_size)

/-- Setting the hashed bits (`bit_array[h_val] = true` in a loop). -/
def setBits (bits : List Bool) (positions : List Nat) : List Bool :=
  positions.foldl (fun acc i => acc.set i true) bits

/-- `BloomFilter::insert` (byte-level overload): no-op on an uninitialised
filter, otherwise set the k hashed bits and count the insertion. -/
def BloomFilter.insert (h1fn : List Nat → Nat) (bf : BloomFilter)
    (data : List Nat) : BloomFilter :=
  if bf.bit_array_size = 0 then bf
  else
    { bf with bit_array := setBits bf.bit_array (bf.hash h1fn data),
              current_insertions := bf.current_insertions + 1 }

/-- `BloomFilter::possiblyContains`: false on an uninitialised filter,
otherwise true iff every hashed bit is set. -/
def BloomFilter.possiblyContains (h1fn : List Nat → Nat) (bf : BloomFilter)
    (data : List Nat) : Bool :=
  if bf.bit_array_size = 0 then false
  else (bf.hash h1fn data).all (fun i => bf.bit_array.getD i false)

/-- A sequence of insertions. -/
def BloomFilter.insertList (h1fn : List Nat → Nat) (bf : BloomFilter)
    (items : List (List Nat)) : BloomFilter :=
  items.foldl (fun b y => b.insert h1fn y) bf

theorem BloomFilter.insert_params (h1fn : List Nat → Nat)
    (bf : BloomFilter) (data : List Nat) :
    (bf.insert h1fn data).bit_array_size = bf.bit_array_size ∧
    (bf.insert h1fn data).num_hash_functions = bf.num_hash_functions := by
  unfold BloomFilter.insert
  split_ifs <;> simp

theorem BloomFilter.hash_eq_of_params (h1fn : List Nat → Nat)
    (bf1 bf2 : BloomFilter) (data : List Nat)
    (hs : bf1.bit_array_size = bf2.bit_array_size)
    (hk : bf1.num_hash_functions = bf2.num_hash_functions) :
    bf1.hash h1fn data = bf2.hash h1fn data := by
  unfold BloomFilter.hash
  rw [hs, hk]

theorem setBits_length (bits : List Bool) (positions : List Nat) :
    (setBits bits positions).length = bits.length := by
  induction positions generalizing bits with
  | nil => rfl
  | cons p rest ih =>
    unfold setBits
    simp only [List.foldl_cons]
    rw [show List.foldl (fun acc i => acc.set i true) (bits.set p true) rest
        = setBits (bits.set p true) rest from rfl]
    rw [ih]
    simp

theorem getD_set_true_mono (l : List Bool) (j i : Nat)
    (h : l.getD i false = true) : (l.set j true).getD i false = true := by
  by_cases hij : i = j
  · subst hij
    by_cases hlt : i < l.length
    · simp [List.getD_eq_getElem?_getD, List.getElem?_set_self hlt]
    · rw [List.set_eq_of_length_le (by omega)]
      exact h
  · simpa [List.getD_eq_getElem?_getD,
      List.getElem?_set_ne (fun he => hij he.symm)] using h

theorem setBits_mono (bits : List Bool) (positions : List Nat) (i : Nat)
    (h : bits.getD i false = true) :
    (setBits bits positions).getD i false = true := by
  induction positions generalizing bits with
  | nil => exact h
  | cons p rest ih =>
    unfold setBits
    simp only [List.foldl_cons]
    exact ih (bits.set p true) (getD_set_true_mono _ _ _ h)

theorem setBits_sets (bits : List Bool) (positions : List Nat) (i : Nat)
    (hmem : i ∈ positions) (hlt : i < bits.length) :
    (setBits bits positions).getD i false = true := by
  induction positions generalizing bits with
  | nil => simp at hmem
  | cons p rest ih =>
    unfold setBits
    simp only [List.foldl_cons]
    rcases List.mem_cons.mp hmem with rfl | hmem
    · refine setBits_mono _ _ _ ?_
      simp [List.getD_eq_getElem?_getD, List.getElem?_set_self hlt]
    · exact ih (bits.set p true) hmem (by simpa using hlt)

theorem hash_lt (h1fn : List Nat → Nat) (bf : BloomFilter) (data : List Nat)
    (hm : bf.bit_array_size ≠ 0) :
    ∀ i ∈ bf.hash h1fn data, i < bf.bit_array_size := by
  intro i hi
  unfold BloomFilter.hash at hi
  by_cases hcond : bf.num_hash_functions = 0 ∨ bf.bit_array_size = 0
  · rw [if_pos hcond] at hi
    simp at hi
  · rw [if_neg hcond] at hi
    simp only [List.mem_map, List.mem_range] at hi
    obtain ⟨j, _, rfl⟩ := hi
    split_ifs <;> exact Nat.mod_lt _ (Nat.pos_of_ne_zero hm)

theorem BloomFilter.insert_length (h1fn : List Nat → Nat)
    (bf : BloomFilter) (data : List Nat) :
    (bf.insert h1fn data).bit_array.length = bf.bit_array.length := by
  unfold BloomFilter.insert
  split_ifs <;> simp [setBits_length]

theorem BloomFilter.insert_mono (h1fn : List Nat → Nat) (bf : BloomFilter)
    (data : List Nat) (i : Nat) (h : bf.bit_array.getD i false = true) :
    (bf.insert h1fn data).bit_array.getD i false = true := by
  unfold BloomFilter.insert
  split_ifs
  · exact h
  · exact setBits_mono _ _ _ h

/-- C7: the Bloom filter has no false negatives. For every base hash
function, every filter state with a consistent bit array, every inserted item
`x` and every sequence of later insertions, `possiblyContains x` afterwards
returns `true`: bits are only ever set, never cleared, and the k hash
positions of `x` are a deterministic function of the filter's parameters. -/
theorem c7_bloom_no_false_negatives (h1fn : List Nat → Nat)
    (bf : BloomFilter) (x : List Nat) (later : List (List Nat))
    (hlen : bf.bit_array.length = bf.bit_array_size)
    (hm : bf.bit_array_size ≠ 0) :
    ((bf.insert h1fn x).insertList h1fn later).possiblyContains h1fn x
      = true := by
  have key : ∀ (items : List (List Nat)) (b : BloomFilter),
      b.bit_array_size = bf.bit_array_size →
      b.num_hash_functions = bf.num_hash_functions →
      b.bit_array.length = bf.bit_array_size →
      (∀ i ∈ bf.hash h1fn x, b.bit_array.getD i false = true) →
      ((b.insertList h1fn items).bit_array_size = bf.bit_array_size ∧
       (b.insertList h1fn items).num_hash_functions =
         bf.num_hash_functions) ∧
      (b.insertList h1fn items).bit_array.length = bf.bit_array_size ∧
      (∀ i ∈ bf.hash h1fn x,
        (b.insertList h1fn items).bit_array.getD i false = true) := by
    intro items
    induction items with
    | nil =>
      intro b h1 h2 h3 h4
      exact ⟨⟨h1, h2⟩, h3, h4⟩
    | cons y rest ih =>
      intro b h1 h2 h3 h4
      rw [show b.insertList h1fn (y :: rest) =
          (b.insert h1fn y).insertList h1fn rest from rfl]
      refine ih (b.insert h1fn y) ?_ ?_ ?_ ?_
      · rw [(BloomFilter.insert_params h1fn b y).1, h1]
      · rw [(BloomFilter.insert_params h1fn b y).2, h2]
      · rw [BloomFilter.insert_length, h3]
      · intro i hi
        exact BloomFilter.insert_mono h1fn b y i (h4 i hi)
  have hfirst : ((bf.insert h1fn x).bit_array_size = bf.bit_array_size ∧
      (bf.insert h1fn x).num_hash_functions = bf.num_hash_functions) ∧
      (bf.insert h1fn x).bit_array.length = bf.bit_array_size ∧
      (∀ i ∈ bf.hash h1fn x,
        (bf.insert h1fn x).bit_array.getD i false = true) := by
    refine ⟨BloomFilter.insert_params h1fn bf x, ?_, ?_⟩
    · rw [BloomFilter.insert_length, hlen]
    · intro i hi
      unfold BloomFilter.insert
      rw [if_neg hm]
      refine setBits_sets _ _ _ hi ?_
      rw [hlen]
      exact hash_lt h1fn bf x hm i hi
  obtain ⟨⟨h1, h2⟩, h3, h4⟩ :=
    key later (bf.insert h1fn x) hfirst.1.1 hfirst.1.2 hfirst.2.1 hfirst.2.2
  unfold BloomFilter.possiblyContains
  rw [if_neg (by rw [h1]; exact hm)]
  rw [BloomFilter.hash_eq_of_params h1fn _ bf x h1 h2]
  rw [List.all_eq_true]
  intro i hi
  exact h4 i hi

/-- Witness for C7 at a concrete input (DJB2 doubling as the opaque base
hash). -/
theorem c7_witness :
    ((BloomFilter.create 8 3).bit_array.length =
       (BloomFilter.create 8 3).bit_array_size ∧
     (BloomFilter.create 8 3).bit_array_size ≠ 0) ∧
    (((BloomFilter.create 8 3).insert hashFunction2 [1, 2]).insertList
        hashFunction2 [[3], [4, 5]]).possiblyContains hashFunction2 [1, 2]
      = true :=
  ⟨⟨by decide, by decide⟩,
   c7_bloom_no_false_negatives hashFunction2 (BloomFilter.create 8 3)
     [1, 2] [[3], [4, 5]] (by decide) (by decide)⟩

/-! ## IntervalTree (`src/data_structures/interval_tree.cpp`)

Nodes own their interval through a non-null `unique_ptr` (every constructed
node has one), so the embedding stores the interval directly. A null child is
`leaf`. Undefined behaviour (dereferencing a null / moved-from `unique_ptr`)
is modelled as `Except.error ()`: in `insertRecursive` the four AVL
rebalancing guards read `new_interval->low` after `new_interval` has been
`std::move`d into the recursive call, so every insertion that triggers a
rotation dereferences a null pointer. -/

structure TreeInterval where
  low : Int
  high : Int
  data_id : Int
deriving DecidableEq, Repr

inductive ITree where
  | leaf : ITree
  | node (interval : TreeInterval) (max_high : Int) (height : Int)
      (left right : ITree) : ITree
deriving DecidableEq, Repr

/-- `IntervalTree::getHeight` (0 for null). -/
def getHeight : ITree → Int
  | ITree.leaf => 0
  | ITree.node _ _ h _ _ => h

/-- `IntervalTree::getBalanceFactor` (0 for null). -/
def getBalanceFactor : ITree → Int
  | ITree.leaf => 0
  | ITree.node _ _ _ l r => getHeight l - getHeight r

/-- `IntervalTree::updateNodeHeight`. -/
def updateNodeHeight : ITree → ITree
  | ITree.leaf => ITree.leaf
  | ITree.node iv mh _ l r =>
    ITree.node iv mh (1 + max (getHeight l) (getHeight r)) l r

/-- `IntervalNode::updateMaxHigh`: own high, then max with each present
child's `max_high`. -/
def updateMaxHigh : ITree → ITree
  | ITree.leaf => ITree.leaf
  | ITree.node iv _ h l r =>
    let m1 := match l with
      | ITree.leaf => iv.high
      | ITree.node _ lmh _ _ _ => max iv.high lmh
    let m2 := match r with
      | ITree.leaf => m1
      | ITree.node _ rmh _ _ _ => max m1 rmh
    ITree.node iv m2 h l r

/-- `IntervalTree::rotateRight`; `error` marks the null dereferences the C++
would perform on a null `y` or null `y->left`. -/
def rotateRight : ITree → Except Unit ITree
  | ITree.leaf => Except.error ()
  | ITree.node yiv ymh yh yl yr =>
    match yl with
    | ITree.leaf => Except.error ()
    | ITree.node xiv xmh xh xl xr =>
      let y1 := ITree.node yiv ymh yh xr yr
      let y2 := updateMaxHigh (updateNodeHeight y1)
      let x1 := ITree.node xiv xmh xh xl y2
      Except.ok (updateMaxHigh (updateNodeHeight x1))

/-- `IntervalTree::rotateLeft`. -/
def rotateLeft : ITree → Except Unit ITree
  | ITree.leaf => Except.error ()
  | ITree.node xiv xmh xh xl xr =>
    match xr with
    | ITree.leaf => Except.error ()
    | ITree.node yiv ymh yh yl yr =>
      let x1 := ITree.node xiv xmh xh xl yl
      let x2 := updateMaxHigh (updateNodeHeight x1)
      let y1 := ITree.node yiv ymh yh x2 yr
      Except.ok (updateMaxHigh (updateNodeHeight y1))

/-- A fresh `IntervalNode` (`max_high` = own high, height 1). -/
def mkIntervalNode (iv : TreeInterval) : ITree :=
  ITree.node iv iv.high 1 ITree.leaf ITree.leaf

/-- `IntervalTree::insertRecursive`. BST descent on `low` (ties on `high`),
then height / `max_high` update, then the AVL balance checks — whose guards
dereference the moved-from `new_interval` pointer: any balance factor outside
`[-1, 1]` is undefined behavior (`error`), so a rotation never actually
happens on the insertion path. -/
def insertRecursive : ITree → TreeInterval → Except Unit ITree
  | ITree.leaf, new_interval => Except.ok (mkIntervalNode new_interval)
  | ITree.node iv mh h l r, new_interval =>
    let child : Except Unit ITree :=
      if new_interval.low < iv.low then
        (insertRecursive l new_interval).map
          (fun l' => ITree.node iv mh h l' r)
      else if new_interval.low > iv.low then
        (insertRecursive r new_interval).map
          (fun r' => ITree.node iv mh h l r')
      else
        if new_interval.high < iv.high then
          (insertRecursive l new_interval).map
            (fun l' => ITree.node iv mh h l' r)
        else
          (insertRecursive r new_interval).map
            (fun r' => ITree.node iv mh h l r')
    match child with
    | Except.error e => Except.error e
    | Except.ok n0 =>
      let n := updateMaxHigh (updateNodeHeight n0)
      let balance := getBalanceFactor n
      if balance > 1 ∨ balance < -1 then
        -- each rebalancing guard evaluates `new_interval->low` after
        -- `std::move(new_interval)`: null dereference, undefined behavior
        Except.error ()
      else Except.ok n

/-- `IntervalTree::insert`: reject `low > high` (no insertion, no error),
otherwise run the recursive insertion. -/
def IntervalTree.insert (root : ITree) (low high data_id : Int) :
    Except Unit ITree :=
  if low > high then Except.ok root
  else insertRecursive root ⟨low, high, data_id⟩

/-- A sequence of `insert` calls from a given root. -/
def insertSeq (t : ITree) : List (Int × Int × Int) → Except Unit ITree
  | [] => Except.ok t
  | (lo, hi, d) :: rest =>
    match IntervalTree.insert t lo hi d with
    | Except.error e => Except.error e
    | Except.ok t' => insertSeq t' rest

/-- `IntervalTree::findMin`, returning the leftmost node's interval (the C++
caller only invokes it on a non-null subtree; the `leaf` value is never
reached from `removeRecursive`). -/
def findMinInterval : ITree → TreeInterval
  | ITree.leaf => ⟨0, 0, 0⟩
  | ITree.node iv _ _ l _ =>
    match l with
    | ITree.leaf => iv
    | ITree.node .. => findMinInterval l

/-- The height / `max_high` update and AVL rebalance block at the end of
`removeRecursive` (with the `if (!node) return nullptr` guard). -/
def rebalanceRemove : ITree → Except Unit ITree
  | ITree.leaf => Except.ok ITree.leaf
  | ITree.node iv mh h l r =>
    let n := updateMaxHigh (updateNodeHeight (ITree.node iv mh h l r))
    match n with
    | ITree.leaf => Except.ok ITree.leaf
    | ITree.node niv nmh nh nl nr =>
      let balance := getHeight nl - getHeight nr
      if balance > 1 ∧ getBalanceFactor nl ≥ 0 then rotateRight n
      else if balance > 1 ∧ getBalanceFactor nl < 0 then
        match rotateLeft nl with
        | Except.error e => Except.error e
        | Except.ok nl' => rotateRight (ITree.node niv nmh nh nl' nr)
      else if balance < -1 ∧ getBalanceFactor nr ≤ 0 then rotateLeft n
      else if balance < -1 ∧ getBalanceFactor nr > 0 then
        match rotateRight nr with
        | Except.error e => Except.error e
        | Except.ok nr' => rotateLeft (ITree.node niv nmh nh nl nr')
      else Except.ok n

/-- `IntervalTree::removeRecursive`: BST descent on `(low, high)`; at the
candidate node, removal happens only when `low`, `high` AND `data_id` all
match (otherwise the code only logs and falls through); the two-child case
copies the inorder successor and deletes it from the right subtree. -/
def removeRecursive : ITree → TreeInterval → Except Unit ITree
  | ITree.leaf, _ => Except.ok ITree.leaf
  | ITree.node iv mh h l r, target =>
    if target.low < iv.low ∨ (target.low = iv.low ∧ target.high < iv.high)
    then
      match removeRecursive l target with
      | Except.error e => Except.error e
      | Except.ok l' => rebalanceRemove (ITree.node iv mh h l' r)
    else if target.low > iv.low ∨
        (target.low = iv.low ∧ target.high > iv.high) then
      match removeRecursive r target with
      | Except.error e => Except.error e
      | Except.ok r' => rebalanceRemove (ITree.node iv mh h l r')
    else
      if iv.low = target.low ∧ iv.high = target.high ∧
          iv.data_id = target.data_id then
        match l, r with
        | ITree.leaf, ITree.leaf => Except.ok ITree.leaf
        | ITree.leaf, ITree.node .. => Except.ok r
        | ITree.node .., ITree.leaf => Except.ok l
        | ITree.node .., ITree.node .. =>
          let succ := findMinInterval r
          match removeRecursive r succ with
          | Except.error e => Except.error e
          | Except.ok r' => rebalanceRemove (ITree.node succ mh h l r')
      else
        rebalanceRemove (ITree.node iv mh h l r)

/-- `IntervalTree::remove(low, high, data_id)`: runs the recursive removal
and returns `true` unconditionally (an acknowledged placeholder — the
return value carries no information about whether anything was removed). -/
def IntervalTree.remove (root : ITree) (low high data_id : Int) :
    Except Unit (ITree × Bool) :=
  match removeRecursive root ⟨low, high, data_id⟩ with
  | Except.error e => Except.error e
  | Except.ok root' => Except.ok (root', true)

/-- `IntervalTree::findOverlappingRecursive` (point query): report the node's
interval when it contains the point, recurse left when the left child's
`max_high` reaches the point, recurse right when the point is at or past the
node's `low` (or, failing that, when the right `max_high` reaches a point
beyond the node's `high`). -/
def findOverlappingRecursive (t : ITree) (point : Int) : List TreeInterval :=
  match t with
  | ITree.leaf => []
  | ITree.node iv _ _ l r =>
    let self := if point ≥ iv.low ∧ point ≤ iv.high then [iv] else []
    let leftPart :=
      match l with
      | ITree.leaf => []
      | ITree.node _ lmh _ _ _ =>
        if lmh ≥ point then findOverlappingRecursive l point else []
    let rightPart :=
      match r with
      | ITree.leaf => []
      | ITree.node _ rmh _ _ _ =>
        if point ≥ iv.low then findOverlappingRecursive r point
        else if rmh ≥ point ∧ point > iv.high then
          findOverlappingRecursive r point
        else []
    self ++ leftPart ++ rightPart

/-! ### Height accuracy

(`TreeInterval` renders the C++ `struct Interval`; Mathlib already claims the
name `Interval`.) `heightsAccurate` says every node's stored `height` equals
one plus the max of its children's stored heights — the property the AVL
update code maintains, and the one that makes the rebalance rotations
well-defined (their null-pointer dereferences unreachable). -/

def heightsAccurate : ITree → Prop
  | ITree.leaf => True
  | ITree.node _ _ h l r =>
    heightsAccurate l ∧ heightsAccurate r ∧
    h = 1 + max (getHeight l) (getHeight r)

theorem getHeight_nonneg (t : ITree) (h : heightsAccurate t) :
    0 ≤ getHeight t := by
  induction t with
  | leaf => simp [getHeight]
  | node iv mh ht l r ihl ihr =>
    obtain ⟨hl, hr, hh⟩ := h
    have := ihl hl
    have := ihr hr
    simp only [getHeight]
    omega

theorem ne_leaf_of_height_pos (t : ITree) (hacc : heightsAccurate t)
    (h : 0 < getHeight t) : t ≠ ITree.leaf := by
  intro he
  subst he
  simp [getHeight] at h

theorem updateMaxHigh_height (t : ITree) :
    getHeight (updateMaxHigh t) = getHeight t := by
  cases t with
  | leaf => rfl
  | node iv mh h l r => rfl

theorem heightsAccurate_updateMaxHigh (t : ITree)
    (h : heightsAccurate t) : heightsAccurate (updateMaxHigh t) := by
  cases t with
  | leaf => trivial
  | node iv mh ht l r => exact h

theorem rotateRight_ok (yiv : TreeInterval) (ymh yh : Int) (yl yr : ITree)
    (haccl : heightsAccurate yl) (haccr : heightsAccurate yr)
    (hne : yl ≠ ITree.leaf) :
    ∃ t', rotateRight (ITree.node yiv ymh yh yl yr) = Except.ok t' ∧
      heightsAccurate t' ∧ t' ≠ ITree.leaf := by
  cases yl with
  | leaf => exact absurd rfl hne
  | node xiv xmh xh xl xr =>
    obtain ⟨haccxl, haccxr, _⟩ := haccl
    refine ⟨_, rfl, ?_, ?_⟩
    · exact heightsAccurate_updateMaxHigh _
        ⟨haccxl, heightsAccurate_updateMaxHigh _ ⟨haccxr, haccr, rfl⟩, rfl⟩
    · simp [updateNodeHeight, updateMaxHigh]

theorem rotateLeft_ok (xiv : TreeInterval) (xmh xh : Int) (xl xr : ITree)
    (haccl : heightsAccurate xl) (haccr : heightsAccurate xr)
    (hne : xr ≠ ITree.leaf) :
    ∃ t', rotateLeft (ITree.node xiv xmh xh xl xr) = Except.ok t' ∧
      heightsAccurate t' ∧ t' ≠ ITree.leaf := by
  cases xr with
  | leaf => exact absurd rfl hne
  | node yiv ymh yh yl yr =>
    obtain ⟨haccyl, haccyr, _⟩ := haccr
    refine ⟨_, rfl, ?_, ?_⟩
    · exact heightsAccurate_updateMaxHigh _
        ⟨heightsAccurate_updateMaxHigh _ ⟨haccl, haccyl, rfl⟩, haccyr, rfl⟩
    · simp [updateNodeHeight, updateMaxHigh]

theorem updateMaxHigh_updateNodeHeight_eq (iv : TreeInterval) (mh h : Int)
    (l r : ITree) :
    ∃ m2, updateMaxHigh (updateNodeHeight (ITree.node iv mh h l r)) =
      ITree.node iv m2 (1 + max (getHeight l) (getHeight r)) l r := by
  cases l <;> cases r <;> exact ⟨_, rfl⟩

theorem rebalanceRemove_ok (iv : TreeInterval) (mh h : Int) (l r : ITree)
    (haccl : heightsAccurate l) (haccr : heightsAccurate r) :
    ∃ t', rebalanceRemove (ITree.node iv mh h l r) = Except.ok t' ∧
      heightsAccurate t' := by
  have hlnn := getHeight_nonneg l haccl
  have hrnn := getHeight_nonneg r haccr
  obtain ⟨m2, hn⟩ := updateMaxHigh_updateNodeHeight_eq iv mh h l r
  rw [show rebalanceRemove (ITree.node iv mh h l r) =
      (match updateMaxHigh (updateNodeHeight (ITree.node iv mh h l r)) with
       | ITree.leaf => Except.ok ITree.leaf
       | ITree.node niv nmh nh nl nr =>
         if getHeight nl - getHeight nr > 1 ∧ getBalanceFactor nl ≥ 0 then
           rotateRight (ITree.node niv nmh nh nl nr)
         else if getHeight nl - getHeight nr > 1 ∧
             getBalanceFactor nl < 0 then
           match rotateLeft nl with
           | Except.error e => Except.error e
           | Except.ok nl' => rotateRight (ITree.node niv nmh nh nl' nr)
         else if getHeight nl - getHeight nr < -1 ∧
             getBalanceFactor nr ≤ 0 then
           rotateLeft (ITree.node niv nmh nh nl nr)
         else if getHeight nl - getHeight nr < -1 ∧
             getBalanceFactor nr > 0 then
           match rotateRight nr with
           | Except.error e => Except.error e
           | Except.ok nr' => rotateLeft (ITree.node niv nmh nh nl nr')
         else Except.ok (ITree.node niv nmh nh nl nr))
      from rfl]
  rw [hn]
  simp only
  split_ifs with hc1 hc2 hc3 hc4
  · have hne : l ≠ ITree.leaf :=
      ne_leaf_of_height_pos l haccl (by omega)
    obtain ⟨t', h1, h2, _⟩ :=
      rotateRight_ok iv m2 (1 + max (getHeight l) (getHeight r)) l r
        haccl haccr hne
    exact ⟨t', h1, h2⟩
  · cases l with
    | leaf => simp [getBalanceFactor] at hc2
    | node liv lmh lh ll lr =>
      obtain ⟨haccll, hacclr, hlh⟩ := haccl
      have hlrne : lr ≠ ITree.leaf := by
        refine ne_leaf_of_height_pos lr hacclr ?_
        have := getHeight_nonneg ll haccll
        simp only [getBalanceFactor] at hc2
        omega
      obtain ⟨l', hl', haccl', hnel'⟩ :=
        rotateLeft_ok liv lmh lh ll lr haccll hacclr hlrne
      rw [hl']
      obtain ⟨t', h1, h2, _⟩ :=
        rotateRight_ok iv m2 _ l' r haccl' haccr hnel'
      exact ⟨t', h1, h2⟩
  · have hne : r ≠ ITree.leaf :=
      ne_leaf_of_height_pos r haccr (by omega)
    obtain ⟨t', h1, h2, _⟩ :=
      rotateLeft_ok iv m2 (1 + max (getHeight l) (getHeight r)) l r
        haccl haccr hne
    exact ⟨t', h1, h2⟩
  · cases r with
    | leaf => simp [getBalanceFactor] at hc4
    | node riv rmh rh rl rr =>
      obtain ⟨haccrl, haccrr, hrh⟩ := haccr
      have hrlne : rl ≠ ITree.leaf := by
        refine ne_leaf_of_height_pos rl haccrl ?_
        have := getHeight_nonneg rr haccrr
        simp only [getBalanceFactor] at hc4
        omega
      obtain ⟨r', hr', haccr', hner'⟩ :=
        rotateRight_ok riv rmh rh rl rr haccrl haccrr hrlne
      rw [hr']
      obtain ⟨t', h1, h2, _⟩ :=
        rotateLeft_ok iv m2 _ l r' haccl haccr' hner'
      exact ⟨t', h1, h2⟩
  · exact ⟨_, rfl, haccl, haccr, rfl⟩

theorem removeRecursive_node_eq (iv : TreeInterval) (mh h : Int)
    (l r : ITree) (target : TreeInterval) :
    removeRecursive (ITree.node iv mh h l r) target =
      (if target.low < iv.low ∨
          (target.low = iv.low ∧ target.high < iv.high) then
        match removeRecursive l target with
        | Except.error e => Except.error e
        | Except.ok l' => rebalanceRemove (ITree.node iv mh h l' r)
      else if target.low > iv.low ∨
          (target.low = iv.low ∧ target.high > iv.high) then
        match removeRecursive r target with
        | Except.error e => Except.error e
        | Except.ok r' => rebalanceRemove (ITree.node iv mh h l r')
      else
        if iv.low = target.low ∧ iv.high = target.high ∧
            iv.data_id = target.data_id then
          match l, r with
          | ITree.leaf, ITree.leaf => Except.ok ITree.leaf
          | ITree.leaf, ITree.node .. => Except.ok r
          | ITree.node .., ITree.leaf => Except.ok l
          | ITree.node .., ITree.node .. =>
            match removeRecursive r (findMinInterval r) with
            | Except.error e => Except.error e
            | Except.ok r' =>
              rebalanceRemove (ITree.node (findMinInterval r) mh h l r')
        else rebalanceRemove (ITree.node iv mh h l r)) := rfl

theorem removeRecursive_ok (t : ITree) (target : TreeInterval)
    (hacc : heightsAccurate t) :
    ∃ t', removeRecursive t target = Except.ok t' ∧ heightsAccurate t' := by
  induction t generalizing target with
  | leaf => exact ⟨ITree.leaf, rfl, trivial⟩
  | node iv mh h l r ihl ihr =>
    obtain ⟨haccl, haccr, hh⟩ := hacc
    rw [removeRecursive_node_eq]
    by_cases h1 : target.low < iv.low ∨
        (target.low = iv.low ∧ target.high < iv.high)
    · rw [if_pos h1]
      obtain ⟨l', hl', haccl'⟩ := ihl target haccl
      rw [hl']
      exact rebalanceRemove_ok iv mh h l' r haccl' haccr
    · rw [if_neg h1]
      by_cases h2 : target.low > iv.low ∨
          (target.low = iv.low ∧ target.high > iv.high)
      · rw [if_pos h2]
        obtain ⟨r', hr', haccr'⟩ := ihr target haccr
        rw [hr']
        exact rebalanceRemove_ok iv mh h l r' haccl haccr'
      · rw [if_neg h2]
        by_cases h3 : iv.low = target.low ∧ iv.high = target.high ∧
            iv.data_id = target.data_id
        · rw [if_pos h3]
          cases l with
          | leaf =>
            cases r with
            | leaf => exact ⟨_, rfl, trivial⟩
            | node riv rmh rh rl rr => exact ⟨_, rfl, haccr⟩
          | node liv lmh lh ll lr =>
            cases r with
            | leaf => exact ⟨_, rfl, haccl⟩
            | node riv rmh rh rl rr =>
              obtain ⟨r', hr', haccr'⟩ :=
                ihr (findMinInterval (ITree.node riv rmh rh rl rr)) haccr
              simp only [hr']
              exact rebalanceRemove_ok _ mh h _ _ haccl haccr'
        · rw [if_neg h3]
          exact rebalanceRemove_ok iv mh h l r haccl haccr

/-- Every successful insertion preserves height accuracy (rotations never
succeed on the insertion path, so only the straight height update runs);
with `rebalanceRemove_ok` this justifies `heightsAccurate` as an invariant
of every reachable tree. -/
theorem insertRecursive_acc (t : ITree) (iv : TreeInterval)
    (hacc : heightsAccurate t) (t' : ITree)
    (h : insertRecursive t iv = Except.ok t') : heightsAccurate t' := by
  induction t generalizing t' with
  | leaf =>
    obtain rfl := Except.ok.inj h
    exact ⟨trivial, trivial, rfl⟩
  | node niv mh ht l r ihl ihr =>
    obtain ⟨haccl, haccr, hh⟩ := hacc
    rw [insertRecursive] at h
    by_cases hb1 : iv.low < niv.low
    · rw [if_pos hb1] at h
      cases hrec : insertRecursive l iv with
      | error e => rw [hrec] at h; simp [Except.map] at h
      | ok l' =>
        have haccl' := ihl haccl l' hrec
        rw [hrec] at h
        simp only [Except.map] at h
        obtain ⟨m2, hn⟩ := updateMaxHigh_updateNodeHeight_eq niv mh ht l' r
        rw [hn] at h
        split_ifs at h
        obtain rfl := Except.ok.inj h
        exact ⟨haccl', haccr, rfl⟩
    · rw [if_neg hb1] at h
      by_cases hb2 : iv.low > niv.low
      · rw [if_pos hb2] at h
        cases hrec : insertRecursive r iv with
        | error e => rw [hrec] at h; simp [Except.map] at h
        | ok r' =>
          have haccr' := ihr haccr r' hrec
          rw [hrec] at h
          simp only [Except.map] at h
          obtain ⟨m2, hn⟩ := updateMaxHigh_updateNodeHeight_eq niv mh ht l r'
          rw [hn] at h
          split_ifs at h
          obtain rfl := Except.ok.inj h
          exact ⟨haccl, haccr', rfl⟩
      · rw [if_neg hb2] at h
        by_cases hb3 : iv.high < niv.high
        · rw [if_pos hb3] at h
          cases hrec : insertRecursive l iv with
          | error e => rw [hrec] at h; simp [Except.map] at h
          | ok l' =>
            have haccl' := ihl haccl l' hrec
            rw [hrec] at h
            simp only [Except.map] at h
            obtain ⟨m2, hn⟩ := updateMaxHigh_updateNodeHeight_eq niv mh ht l' r
            rw [hn] at h
            split_ifs at h
            obtain rfl := Except.ok.inj h
            exact ⟨haccl', haccr, rfl⟩
        · rw [if_neg hb3] at h
          cases hrec : insertRecursive r iv with
          | error e => rw [hrec] at h; simp [Except.map] at h
          | ok r' =>
            have haccr' := ihr haccr r' hrec
            rw [hrec] at h
            simp only [Except.map] at h
            obtain ⟨m2, hn⟩ := updateMaxHigh_updateNodeHeight_eq niv mh ht l r'
            rw [hn] at h
            split_ifs at h
            obtain rfl := Except.ok.inj h
            exact ⟨haccl, haccr', rfl⟩

/-- C10: `IntervalTree::remove(low, high, data_id)` always returns `true`
for every (height-accurate) tree state and every argument triple, including
when no stored interval matches the given `(low, high, data_id)`: the
recursive removal always succeeds and the wrapper returns the placeholder
`true` unconditionally, so the return value carries no information about
whether anything was removed. -/
theorem c10_remove_always_true (t : ITree) (low high data_id : Int)
    (hacc : heightsAccurate t) :
    ∃ t', IntervalTree.remove t low high data_id = Except.ok (t', true) := by
  obtain ⟨t', ht', _⟩ :=
    removeRecursive_ok t ⟨low, high, data_id⟩ hacc
  refine ⟨t', ?_⟩
  rw [IntervalTree.remove, ht']

theorem c10_witness :
    ∃ t', IntervalTree.remove
        (ITree.node ⟨1, 10, 1⟩ 10 1 ITree.leaf ITree.leaf) 5 6 2
      = Except.ok (t', true) :=
  c10_remove_always_true (ITree.node ⟨1, 10, 1⟩ 10 1 ITree.leaf ITree.leaf)
    5 6 2 ⟨trivial, trivial, by decide⟩

/-- C6: refuted at the first rebalancing insertion — the claimed
insert-then-query correctness cannot hold for "any sequence of insertions"
because `IntervalTree::insertRecursive` std::moves `new_interval` into the
recursive call and then reads `new_interval->low` in every AVL rebalance
guard, a null-pointer dereference (undefined behavior). In the embedding,
where that dereference is `Except.error ()`, inserting the ascending
intervals (0,5), (10,15), (20,25) succeeds for the first two and faults on
the third, whose root balance factor is -2. -/
theorem c6_insert_rebalance_dereferences_moved_pointer :
    insertSeq ITree.leaf [(0, 5, 0), (10, 15, 1)]
      = Except.ok (ITree.node ⟨0, 5, 0⟩ 15 2 ITree.leaf
          (ITree.node ⟨10, 15, 1⟩ 15 1 ITree.leaf ITree.leaf))
    ∧ insertSeq ITree.leaf [(0, 5, 0), (10, 15, 1), (20, 25, 2)]
      = Except.error () := by
  exact ⟨rfl, rfl⟩
